import Mathlib

/-!
Verification development for the ECS.js core (src/core.js, src/systems.js).

The JavaScript source is shallowly embedded: component records are
association lists from field names to values, the per-component map store
(the default `storeMode === 'map'`) is an insertion-ordered association
list from entity ids to records, and the `World` object is a structure
whose methods become state-passing functions.  JavaScript exceptions are
modelled by returning the state reached at the throw point together with
an `Except` value, since a thrown exception in JS does not roll back the
mutations already performed.  The `JS:` comments quote the lines of
src/core.js / src/systems.js that each definition translates.
-/

namespace ECS

/-- Component field values (the claims never inspect the value type). -/
abbrev Val := Int

/-- A component record: a JS plain object, field name to value. -/
abbrev Rec := List (String × Val)

/-- Lookup in an insertion-ordered association list (JS `Map.get`). -/
def alookup {κ υ : Type} [DecidableEq κ] : List (κ × υ) → κ → Option υ
  | [], _ => none
  | (k, v) :: rest, k' => if k = k' then some v else alookup rest k'

/-- JS `Map.set`: replace in place if the key exists, else append. -/
def setA {κ υ : Type} [DecidableEq κ] : List (κ × υ) → κ → υ → List (κ × υ)
  | [], k, v => [(k, v)]
  | (k0, v0) :: rest, k, v =>
    if k0 = k then (k, v) :: rest else (k0, v0) :: setA rest k v

/-- JS `Set.add`: append if not already present. -/
def pushUnique (l : List Nat) (x : Nat) : List Nat :=
  if x ∈ l then l else l ++ [x]

/-- Field lookup on a record. -/
def recLookup (r : Rec) (f : String) : Option Val := alookup r f

/-- JS `Object.assign({}, r, p)`: fields of `r` overridden by `p`,
new fields of `p` appended. -/
def mergeRec (r p : Rec) : Rec :=
  (r.map fun kv =>
    match recLookup p kv.1 with
    | some v => (kv.1, v)
    | none => kv)
  ++ p.filter fun kv => (recLookup r kv.1).isNone

/-- Component descriptor (JS `defineComponent`; `key` models the unique
symbol, `name` its description string). -/
structure Comp where
  key : Nat
  name : String
  defaults : Rec
  validate : Option (Rec → Bool)

/-- The error kinds thrown by the direct World API (spec section 7). -/
inductive Err where
  | notAlive
  | strictMutation
  | missingComponent
  | noScheduler
  | validationFailed (name : String)
deriving DecidableEq

/-- The default map store: JS `makeMapStore`'s `Map<id, record>`
(the auxiliary `fast` object mirrors `map` and is not observable through
the store contract). -/
abbrev Store := List (Nat × Rec)

/-- JS map store `get(id)`. -/
def storeGet (s : Store) (id : Nat) : Option Rec := alookup s id

/-- JS map store `has(id)`. -/
def storeHas (s : Store) (id : Nat) : Bool := (alookup s id).isSome

/-- JS map store `set(id, rec)`. -/
def storeSet (s : Store) (id : Nat) (r : Rec) : Store := setA s id r

/-- JS map store `delete(id)`: removes the entry, returns whether it existed. -/
def storeDel (s : Store) (id : Nat) : Store × Bool :=
  (s.filter fun p => p.1 != id, (alookup s id).isSome)

/-- JS `arr.sort((a, b) => a - b)`: ascending numeric sort. -/
def sortNat (l : List Nat) : List Nat := l.insertionSort (· ≤ ·)

/-- JS map store `entityIds()`: the key set sorted ascending. -/
def entityIds (s : Store) : List Nat := sortNat (s.map Prod.fst)

/-- A deferred command (JS `World.command` payloads).  A queued callback
function is modelled by the world-visible effect relevant to the deferral
protocol: the `world.command(...)` calls its body performs (`fnOp`). -/
inductive Op where
  | destroyOp (id : Nat)
  | addOp (id : Nat) (c : Comp) (data : Rec)
  | removeOp (id : Nat) (c : Comp)
  | setOp (id : Nat) (c : Comp) (patch : Rec)
  | mutateOp (id : Nat) (c : Comp) (f : Rec → Rec)
  | fnOp (pushes : List Op)

/-- The World state (JS `class World`, constructor fields).  The
scheduler function itself is passed to `tick` as a parameter;
`schedInstalled` models whether `this.scheduler` is non-null.  The rng,
event map and debug flag are omitted: no claim mentions them. -/
structure World where
  store : List (Nat × Store)
  cache : List (String × List Nat)
  changed : List (Nat × List Nat)
  cmd : List Op
  free : List Nat
  nextId : Nat
  alive : List Nat
  inTick : Bool
  strict : Bool
  schedInstalled : Bool
  time : Int
  step : Nat

/-- A fresh world (JS `new World({strict})`, plus whether a scheduler
has been installed via `setScheduler`). -/
def World.init (strict schedInstalled : Bool) : World :=
  { store := [], cache := [], changed := [], cmd := [], free := [],
    nextId := 1, alive := [], inTick := false, strict := strict,
    schedInstalled := schedInstalled, time := 0, step := 0 }

/-- JS `World._mapFor(Comp)`: returns the component's store, lazily
creating and registering an empty one. -/
def World.mapFor (w : World) (c : Comp) : World × Store :=
  match alookup w.store c.key with
  | some s => (w, s)
  | none => ({ w with store := w.store ++ [(c.key, ([] : Store))] }, [])

/-- JS `World._markChanged(ckey, id)`. -/
def World.markChanged (w : World) (ck : Nat) (id : Nat) : World :=
  match alookup w.changed ck with
  | none => { w with changed := w.changed ++ [(ck, [id])] }
  | some s =>
    { w with changed := setA w.changed ck (if id ∈ s then s else s ++ [id]) }

/-- The ids marked changed for a component key. -/
def changedAt (w : World) (ck : Nat) : List Nat := (alookup w.changed ck).getD []

/-- The record stored for `(id, c)`, as a pure observation. -/
def recOf (w : World) (c : Comp) (id : Nat) : Option Rec :=
  (alookup w.store c.key).bind fun s => storeGet s id

/-- JS `World.create()`: pop a freed id (`_free.pop()` pops the last
element) or mint `_nextId++`; mark alive. -/
def World.create (w : World) : World × Nat :=
  match w.free.getLast? with
  | some id => ({ w with free := w.free.dropLast, alive := pushUnique w.alive id }, id)
  | none =>
    ({ w with nextId := w.nextId + 1, alive := pushUnique w.alive w.nextId }, w.nextId)

/-- Purge an id from every registered store, reporting which component
keys actually held a record (JS `World.destroy`'s store loop). -/
def purgeAll (id : Nat) : List (Nat × Store) → List (Nat × Store) × List Nat
  | [] => ([], [])
  | (k, s) :: rest =>
    let d := storeDel s id
    let r := purgeAll id rest
    ((k, d.1) :: r.1, if d.2 then k :: r.2 else r.2)

/-- JS `World.destroy(id)`: `false` if not alive; deferred (or a strict
error) inside a tick; otherwise purge every store (marking each actual
purge), remove from the alive set, push onto the free pool, clear the
query cache, return `true`.  `Option Bool` models `boolean|null`. -/
def World.destroy (w : World) (id : Nat) : World × Except Err (Option Bool) :=
  if id ∈ w.alive then
    if w.inTick then
      if w.strict then (w, .error .strictMutation)
      else ({ w with cmd := w.cmd ++ [Op.destroyOp id] }, .ok none)
    else
      let p := purgeAll id w.store
      let w1 := { w with store := p.1 }
      let w2 := p.2.foldl (fun acc k => acc.markChanged k id) w1
      ({ w2 with alive := w2.alive.erase id, free := w2.free ++ [id], cache := [] },
        .ok (some true))
  else (w, .ok (some false))

/-- JS `World.isAlive(id)`. -/
def World.isAlive (w : World) (id : Nat) : Bool := decide (id ∈ w.alive)

/-- JS `World.add(id, Comp, data)`: throws NotAlive on a dead id,
defers (or throws) inside a tick, validates the merged record before
storing it, marks changed, invalidates the cache. -/
def World.add (w : World) (id : Nat) (c : Comp) (data : Rec) :
    World × Except Err (Option Rec) :=
  if id ∈ w.alive then
    if w.inTick then
      if w.strict then (w, .error .strictMutation)
      else ({ w with cmd := w.cmd ++ [Op.addOp id c data] }, .ok none)
    else
      let rec0 := mergeRec c.defaults data
      let okV := match c.validate with | some v => v rec0 | none => true
      if okV then
        let p := w.mapFor c
        let w1 := { p.1 with store := setA p.1.store c.key (storeSet p.2 id rec0) }
        let w2 := w1.markChanged c.key id
        ({ w2 with cache := [] }, .ok (some rec0))
      else (w, .error (.validationFailed c.name))
  else (w, .error .notAlive)

/-- JS `World.get(id, Comp)`: `this._mapFor(Comp).get(id) || null`.
Note that `_mapFor` may register an empty store, hence the World result. -/
def World.get (w : World) (id : Nat) (c : Comp) : World × Option Rec :=
  let p := w.mapFor c
  (p.1, storeGet p.2 id)

/-- JS `World.has(id, Comp)`: `this._mapFor(Comp).has(id)`. -/
def World.has (w : World) (id : Nat) (c : Comp) : World × Bool :=
  let p := w.mapFor c
  (p.1, storeHas p.2 id)

/-- JS `World.remove(id, Comp)`. -/
def World.remove (w : World) (id : Nat) (c : Comp) :
    World × Except Err (Option Bool) :=
  if w.inTick then
    if w.strict then (w, .error .strictMutation)
    else ({ w with cmd := w.cmd ++ [Op.removeOp id c] }, .ok none)
  else
    let p := w.mapFor c
    let d := storeDel p.2 id
    let w1 := { p.1 with store := setA p.1.store c.key d.1 }
    if d.2 then ({ w1.markChanged c.key id with cache := [] }, .ok (some true))
    else (w1, .ok (some false))

/-- JS `World.set(id, Comp, patch)`: merge `patch` into the existing
record, validating the merged result first; throws MissingComponent if
absent.  Does not touch the query cache. -/
def World.set (w : World) (id : Nat) (c : Comp) (patch : Rec) :
    World × Except Err (Option Rec) :=
  if w.inTick then
    if w.strict then (w, .error .strictMutation)
    else ({ w with cmd := w.cmd ++ [Op.setOp id c patch] }, .ok none)
  else
    let g := w.get id c
    match g.2 with
    | none => (g.1, .error .missingComponent)
    | some r =>
      let next := mergeRec r patch
      let okV := match c.validate with | some v => v next | none => true
      if okV then
        let p := g.1.mapFor c
        let w1 := { p.1 with store := setA p.1.store c.key (storeSet p.2 id next) }
        (w1.markChanged c.key id, .ok (some next))
      else (g.1, .error (.validationFailed c.name))

/-- JS `World.mutate(id, Comp, fn)`: apply `fn` to the live record in
place; no validation.  The in-place JS mutation is modelled by writing
`f r` back into the store. -/
def World.mutate (w : World) (id : Nat) (c : Comp) (f : Rec → Rec) :
    World × Except Err (Option Rec) :=
  if w.inTick then
    if w.strict then (w, .error .strictMutation)
    else ({ w with cmd := w.cmd ++ [Op.mutateOp id c f] }, .ok none)
  else
    let g := w.get id c
    match g.2 with
    | none => (g.1, .error .missingComponent)
    | some r =>
      let p := g.1.mapFor c
      let w1 := { p.1 with store := setA p.1.store c.key (storeSet p.2 id (f r)) }
      (w1.markChanged c.key id, .ok (some (f r)))

/-- JS `World.command(op)`. -/
def World.command (w : World) (op : Op) : World := { w with cmd := w.cmd ++ [op] }

/-- JS `World._applyOp(op)`: dispatch to the API call, catching (and
discarding) any thrown error; a queued callback runs its body. -/
def World.applyOp (w : World) (op : Op) : World :=
  match op with
  | .destroyOp id => (w.destroy id).1
  | .addOp id c d => (w.add id c d).1
  | .removeOp id c => (w.remove id c).1
  | .setOp id c p => (w.set id c p).1
  | .mutateOp id c f => (w.mutate id c f).1
  | .fnOp ps => { w with cmd := w.cmd ++ ps }

/-- The bounded deferred-command flush inside JS `World.tick` (lines
151-161): copy the queue, clear it, apply the first `min(1000, n)`
commands in order with `_inTick` temporarily cleared, then push the
remainder back onto the (possibly re-populated) queue. -/
def World.flushCmds (w : World) : World :=
  if w.cmd.isEmpty then w
  else
    let cmds := w.cmd
    let w1 := { w with cmd := [] }
    let limit := min 1000 cmds.length
    let prev := w1.inTick
    let w2 := (cmds.take limit).foldl World.applyOp { w1 with inTick := false }
    let w3 := { w2 with inTick := prev }
    if limit < cmds.length then { w3 with cmd := w3.cmd ++ cmds.drop limit } else w3

/-- The start of JS `World.tick(dt)`: advance the clock and counter,
raise the in-tick flag (lines 143-145). -/
def World.beginTick (w : World) (dt : Int) : World :=
  { w with time := w.time + dt, step := w.step + 1, inTick := true }

/-- The end of JS `World.tick(dt)`: flush deferred commands, clear the
change table, drop the in-tick flag (lines 151-165). -/
def World.endTick (w : World) : World :=
  let w1 := w.flushCmds
  { w1 with changed := [], inTick := false }

/-- JS `World.tick(dt)`, with the installed scheduler (an arbitrary
function on the world) passed as a parameter; errors thrown by the
scheduler are caught, so it is modelled as total. -/
def World.tick (sched : World → World) (dt : Int) (w : World) :
    World × Except Err Unit :=
  if w.schedInstalled then ((sched (w.beginTick dt)).endTick, .ok ())
  else (w, .error .noScheduler)

/-- JS `intersectSorted(a, b)`: two-pointer merge intersection of two
ascending lists. -/
def intersectSorted : List Nat → List Nat → List Nat
  | [], _ => []
  | _ :: _, [] => []
  | a :: as, b :: bs =>
    if a = b then a :: intersectSorted as bs
    else if a < b then intersectSorted as (b :: bs)
    else intersectSorted (a :: as) bs
termination_by x y => x.length + y.length

/-- A query term: a plain component, `Not(Comp)` or `Changed(Comp)`. -/
inductive Term where
  | comp (c : Comp)
  | notT (c : Comp)
  | changedT (c : Comp)

/-- The normalized query spec (JS `normalizeTerms` result). -/
structure QuerySpec where
  all : List Comp
  noneC : List Comp
  changedC : List Comp
  cacheKey : String

/-- JS `Array.prototype.join('|')`. -/
def joinBar : List String → String
  | [] => ""
  | [s] => s
  | s :: rest => s ++ "|" ++ joinBar rest

/-- The query-cache key (JS `normalizeTerms` line 494):
`all.map(c => c.key.description || 'c').sort().join('|') || '*'`. -/
def cacheKeyOf (all : List Comp) : String :=
  let names := all.map fun c => if c.name = "" then "c" else c.name
  let j := joinBar (names.insertionSort (· ≤ ·))
  if j = "" then "*" else j

/-- JS `normalizeTerms(terms)`: split into positive / negated /
change-filtered components and compute the cache key. -/
def normalizeTerms (terms : List Term) : QuerySpec :=
  { all := terms.filterMap fun t => match t with | .comp c => some c | _ => none
    noneC := terms.filterMap fun t => match t with | .notT c => some c | _ => none
    changedC := terms.filterMap fun t => match t with | .changedT c => some c | _ => none
    cacheKey := cacheKeyOf (terms.filterMap fun t => match t with | .comp c => some c | _ => none) }

/-- The intersection loop of JS `World._cachedEntityList` (lines
434-439), including the short-circuit `break` on an empty result. -/
def World.entityListLoop : World → List Comp → Option (List Nat) → World × Option (List Nat)
  | w, [], acc => (w, acc)
  | w, c :: rest, acc =>
    let p := w.mapFor c
    let arr := entityIds p.2
    let r := match acc with | none => arr | some a => intersectSorted a arr
    if r.isEmpty then (p.1, some r) else World.entityListLoop p.1 rest (some r)

/-- JS `World._cachedEntityList(spec, key)`: reuse the cached list for
the key if present; otherwise intersect the positive components' sorted
id lists (all alive ids, sorted, when there are no positive terms) and
store the result in the cache. -/
def World.cachedEntityList (w : World) (sp : QuerySpec) (key : String) :
    World × List Nat :=
  match alookup w.cache key with
  | some l => (w, l)
  | none =>
    let p := w.entityListLoop sp.all none
    let result := if sp.all.isEmpty then sortNat p.1.alive else p.2.getD []
    ({ p.1 with cache := setA p.1.cache key result }, result)

/-- The base id list of JS `World.query(...terms)` (line 334): normalize
the terms and resolve the cached entity list.  The dynamic `Not` /
`Changed` filters are applied lazily on top of this list and do not
touch the cache. -/
def World.queryBase (w : World) (terms : List Term) : World × List Nat :=
  let sp := normalizeTerms terms
  w.cachedEntityList sp sp.cacheKey

/-- One step of an interleaving of World API calls.  A tick appears as
`beginTickA`, the scheduler's own API calls, then `endTickA` (the flush
and change-table clear). -/
inductive Act where
  | createA
  | destroyA (id : Nat)
  | addA (id : Nat) (c : Comp) (d : Rec)
  | removeA (id : Nat) (c : Comp)
  | setA (id : Nat) (c : Comp) (p : Rec)
  | mutateA (id : Nat) (c : Comp) (f : Rec → Rec)
  | queryA (terms : List Term)
  | beginTickA (dt : Int)
  | endTickA

/-- Run one API call, discarding its return value. -/
def runAct (w : World) : Act → World
  | .createA => w.create.1
  | .destroyA id => (w.destroy id).1
  | .addA id c d => (w.add id c d).1
  | .removeA id c => (w.remove id c).1
  | .setA id c p => (w.set id c p).1
  | .mutateA id c f => (w.mutate id c f).1
  | .queryA terms => (w.queryBase terms).1
  | .beginTickA dt => w.beginTick dt
  | .endTickA => w.endTick

/-- Run a sequence of API calls. -/
def runActs (t : List Act) (w : World) : World := t.foldl runAct w

/-- A registered system (JS `registerSystem` record); system functions
are identified by opaque handles, as JS compares them by identity. -/
structure SysNode where
  system : Nat
  before : List Nat
  after : List Nat

/-- The graph keys: one per distinct registered system function, in
first-registration order (JS `Map` key order). -/
def graphKeys (nodes : List SysNode) : List Nat :=
  nodes.foldl (fun acc nd => pushUnique acc nd.system) []

/-- Add the edge `u -> v` to the adjacency map (JS
`graph.get(u).add(v)`); `u` is always a key at the call sites. -/
def addEdge (g : List (Nat × List Nat)) (u v : Nat) : List (Nat × List Nat) :=
  match alookup g u with
  | some l => setA g u (pushUnique l v)
  | none => g

/-- The edges contributed by one registration record (JS
`getOrderedSystems` second pass): for `dep` in `after`, edge
`dep -> system`; for `dep` in `before`, edge `system -> dep`; hints
naming unregistered systems are dropped. -/
def addNodeEdges (keys : List Nat) (g : List (Nat × List Nat)) (nd : SysNode) :
    List (Nat × List Nat) :=
  let g1 := nd.after.foldl (fun g dep => if dep ∈ keys then addEdge g dep nd.system else g) g
  nd.before.foldl (fun g dep => if dep ∈ keys then addEdge g nd.system dep else g) g1

/-- Build the dependency graph of a phase (JS `getOrderedSystems` lines
59-64): an edge `u -> v` means `u` must run before `v`. -/
def buildAdj (nodes : List SysNode) : List (Nat × List Nat) :=
  let keys := graphKeys nodes
  nodes.foldl (addNodeEdges keys) (keys.map fun k => (k, ([] : List Nat)))

/-- Adjacency lookup. -/
def adjOf (g : List (Nat × List Nat)) (n : Nat) : List Nat := (alookup g n).getD []

/-- The depth-first post-order traversal of JS `getOrderedSystems`
(lines 65-73), processing a worklist of roots; `fuel` bounds the
recursion depth and `graphKeys.length` fuel always suffices (each
expansion visits a previously unvisited node).  State is
`(visited, postorder output)`. -/
def visitF (adj : Nat → List Nat) : Nat → List Nat → List Nat × List Nat → List Nat × List Nat
  | _, [], st => st
  | fuel, n :: ns, st =>
    let st1 :=
      if n ∈ st.1 then st
      else
        match fuel with
        | 0 => st
        | fuel' + 1 =>
          let st' := visitF adj fuel' (adj n) (n :: st.1, st.2)
          (st'.1, st'.2 ++ [n])
    visitF adj fuel ns st1
termination_by fuel l _ => (fuel, l.length)

/-- JS `getOrderedSystems(phase)`: an explicit order bypasses
resolution entirely; otherwise DFS post-order over the hint graph,
reversed. -/
def getOrderedSystems (explicit : Option (List Nat)) (nodes : List SysNode) : List Nat :=
  match explicit with
  | some l => l
  | none =>
    let keys := graphKeys nodes
    let adj := adjOf (buildAdj nodes)
    (visitF adj keys.length keys ([], [])).2.reverse

/-- Edge relation of a built graph: `Edge adj u v` iff the resolver must
schedule `u` before `v`. -/
def Edge (adj : Nat → List Nat) (u v : Nat) : Prop := v ∈ adj u

/-- `u` occurs strictly before `v` in the list `l`. -/
def Prec (l : List Nat) (u v : Nat) : Prop :=
  ∃ i j, ∃ hi : i < l.length, ∃ hj : j < l.length,
    i < j ∧ l.get ⟨i, hi⟩ = u ∧ l.get ⟨j, hj⟩ = v

/-- The number of graph keys not yet visited; the fuel bound for
`visitF` (each expansion visits a fresh node, so `graphKeys.length`
fuel always suffices from an empty visited set). -/
def unvis (keys vis : List Nat) : Nat :=
  (keys.filter fun k => decide (k ∉ vis)).length

/-- The DFS invariant on a traversal state `(visited, postorder out)`
relative to the gray stack (the chain of still-expanding ancestors):
visited nodes are finished (in `out`) or gray, finished nodes are
visited keys and never gray, the output has no duplicates, and every
graph successor of a finished node is finished strictly earlier in the
postorder. -/
structure DfsInv (adj : Nat → List Nat) (keys gray : List Nat)
    (st : List Nat × List Nat) : Prop where
  visDone : ∀ x ∈ st.1, x ∈ st.2 ∨ x ∈ gray
  outVis : ∀ x ∈ st.2, x ∈ st.1
  grayVis : ∀ g ∈ gray, g ∈ st.1
  grayOut : ∀ g ∈ gray, g ∉ st.2
  visKeys : ∀ x ∈ st.1, x ∈ keys
  outNd : st.2.Nodup
  ord : ∀ (i : Nat) (hi : i < st.2.length) (m : Nat),
    m ∈ adj (st.2.get ⟨i, hi⟩) →
    ∃ j, ∃ hj : j < st.2.length, j < i ∧ st.2.get ⟨j, hj⟩ = m

/-- The sorted id list a component's store would report: `entityIds()`
of the registered store, or of the empty store `_mapFor` would create.
A pure observation used to state query results. -/
def idsOf (w : World) (c : Comp) : List Nat :=
  entityIds ((alookup w.store c.key).getD [])

/-- The id-space partition invariant (spec section 3): every allocated
id — `1 ≤ id < nextId` — is in exactly one of the free pool and the
alive set, unallocated ids are in neither, and neither collection
repeats an id (so no two simultaneously alive entities share an id). -/
structure IdP (w : World) : Prop where
  pos : 1 ≤ w.nextId
  aliveNd : w.alive.Nodup
  freeNd : w.free.Nodup
  disj : ∀ id, id ∈ w.free → id ∉ w.alive
  bound : ∀ id, id ∈ w.free ∨ id ∈ w.alive → 1 ≤ id ∧ id < w.nextId
  cover : ∀ id, 1 ≤ id → id < w.nextId → id ∈ w.free ∨ id ∈ w.alive

/-! Concrete instances used by witnesses and counterexamples. -/

/-- A tag-like component with no fields and no validator. -/
def cA : Comp := ⟨0, "A", [], none⟩

/-- A one-field component without a validator. -/
def cB : Comp := ⟨1, "B", [("x", 0)], none⟩

/-- A one-field component whose validator requires `x` to be nonnegative. -/
def cV : Comp := ⟨2, "V", [("x", 0)], some fun r => (recLookup r "x").getD 0 ≥ 0⟩

/-- A world with an already-registered (empty) store for `cA`. -/
def wReg : World := { World.init false false with store := [(cA.key, [])] }

/-- A world holding one alive entity `1` carrying `cV` with `x = 3`. -/
def wV : World :=
  { World.init false false with
    alive := [1], nextId := 2, store := [(cV.key, [(1, [("x", 3)])])] }

/-- A deferred command that is a no-op at flush time (destroy of a dead id). -/
def opNop : Op := .destroyOp 5

/-- The command enqueued *during* the drain by the queued callback. -/
def opX : Op := .destroyOp 7

/-- The 1001st queued command, deferred past the 1000-op flush cap. -/
def opLast : Op := .destroyOp 9

/-- A world whose queue holds 1001 commands, the first being a callback
that enqueues `opX` when applied. -/
def wC2 : World :=
  { World.init false true with
    cmd := Op.fnOp [opX] :: (List.replicate 999 opNop ++ [opLast]) }

/-- A world with alive entities 1 and 2 where only entity 2 carries
component `cB`. -/
def wQ : World :=
  { World.init false false with
    alive := [1, 2], nextId := 3, store := [(cB.key, [(2, [])])] }

end ECS

namespace ECS

/-! Association-list lemmas. -/

theorem alookup_setA_self {κ υ : Type} [DecidableEq κ] :
    ∀ (l : List (κ × υ)) (k : κ) (v : υ), alookup (setA l k v) k = some v
  | [], k, v => by simp [setA, alookup]
  | (k0, v0) :: rest, k, v => by
    by_cases h : k0 = k
    · simp [setA, alookup, h]
    · simp [setA, alookup, h, alookup_setA_self rest k v]

theorem alookup_setA_ne {κ υ : Type} [DecidableEq κ] :
    ∀ (l : List (κ × υ)) (k : κ) (v : υ) (k' : κ), k ≠ k' →
      alookup (setA l k v) k' = alookup l k'
  | [], k, v, k', h => by simp [setA, alookup, h]
  | (k0, v0) :: rest, k, v, k', h => by
    by_cases h0 : k0 = k
    · subst h0; simp [setA, alookup, h]
    · simp only [setA, if_neg h0, alookup]
      by_cases h1 : k0 = k'
      · simp [h1]
      · simp [h1, alookup_setA_ne rest k v k' h]

theorem alookup_append_left {κ υ : Type} [DecidableEq κ] :
    ∀ (l1 l2 : List (κ × υ)) (k : κ) (v : υ), alookup l1 k = some v →
      alookup (l1 ++ l2) k = some v
  | [], _, _, _, h => by simp [alookup] at h
  | (k0, v0) :: rest, l2, k, v, h => by
    by_cases h0 : k0 = k
    · simp only [alookup, if_pos h0] at h
      simp [alookup, h0, h]
    · simp only [alookup, if_neg h0] at h
      simpa [alookup, h0] using alookup_append_left rest l2 k v h

theorem alookup_append_right {κ υ : Type} [DecidableEq κ] :
    ∀ (l1 l2 : List (κ × υ)) (k : κ), alookup l1 k = none →
      alookup (l1 ++ l2) k = alookup l2 k
  | [], _, _, _ => by simp
  | (k0, v0) :: rest, l2, k, h => by
    by_cases h0 : k0 = k
    · simp [alookup, h0] at h
    · simp only [alookup, if_neg h0] at h
      simpa [alookup, h0] using alookup_append_right rest l2 k h

/-! Shape lemmas: `markChanged` only rewrites the change table. -/

theorem markChanged_shape (w : World) (ck id : Nat) :
    ∃ ch, w.markChanged ck id = { w with changed := ch } := by
  unfold World.markChanged
  split
  · exact ⟨_, rfl⟩
  · exact ⟨_, rfl⟩

theorem foldl_markChanged_shape (id : Nat) :
    ∀ (l : List Nat) (w : World),
      ∃ ch, l.foldl (fun acc k => acc.markChanged k id) w = { w with changed := ch }
  | [], w => ⟨w.changed, rfl⟩
  | k :: l, w => by
    obtain ⟨ch1, h1⟩ := markChanged_shape w k id
    obtain ⟨ch2, h2⟩ := foldl_markChanged_shape id l (w.markChanged k id)
    refine ⟨ch2, ?_⟩
    simp only [List.foldl_cons]
    rw [h2, h1]

/-! Change-table membership lemmas. -/

theorem mem_changedAt_markChanged_self (w : World) (ck id : Nat) :
    id ∈ changedAt (w.markChanged ck id) ck := by
  unfold World.markChanged changedAt
  cases h : alookup w.changed ck with
  | none => rw [alookup_append_right _ _ _ h]; simp [alookup]
  | some s =>
    rw [alookup_setA_self]
    by_cases hid : id ∈ s <;> simp [hid]

theorem mem_changedAt_markChanged (w : World) (k' id' k x : Nat)
    (h : x ∈ changedAt w k) : x ∈ changedAt (w.markChanged k' id') k := by
  unfold World.markChanged
  cases h' : alookup w.changed k' with
  | none =>
    unfold changedAt at h ⊢
    cases hk : alookup w.changed k with
    | none => simp [hk] at h
    | some s => rw [alookup_append_left _ _ _ _ hk]; simpa [hk] using h
  | some s =>
    unfold changedAt at h ⊢
    by_cases hkk : k' = k
    · subst hkk
      rw [alookup_setA_self]
      rw [h'] at h
      simp only [Option.getD_some] at h
      by_cases hid : id' ∈ s <;> simp [hid, h]
    · rw [alookup_setA_ne _ _ _ _ (fun hh => hkk hh)]
      exact h

theorem mem_changedAt_foldl_mono (id : Nat) :
    ∀ (l : List Nat) (w : World) (k x : Nat), x ∈ changedAt w k →
      x ∈ changedAt (l.foldl (fun acc k' => acc.markChanged k' id) w) k
  | [], w, k, x, h => h
  | k0 :: l, w, k, x, h => by
    simp only [List.foldl_cons]
    exact mem_changedAt_foldl_mono id l _ k x (mem_changedAt_markChanged w k0 id k x h)

theorem mem_changedAt_foldl (id : Nat) :
    ∀ (l : List Nat) (w : World) (k : Nat), k ∈ l →
      id ∈ changedAt (l.foldl (fun acc k' => acc.markChanged k' id) w) k
  | [], _, _, h => by simp at h
  | k0 :: l, w, k, h => by
    simp only [List.foldl_cons]
    rcases List.mem_cons.mp h with h0 | h0
    · subst h0
      exact mem_changedAt_foldl_mono id l _ k id (mem_changedAt_markChanged_self w k id)
    · exact mem_changedAt_foldl id l _ k h0

/-! Store and purge lemmas. -/

theorem alookup_filter_ne (id : Nat) :
    ∀ s : Store, alookup (s.filter fun p => p.1 != id) id = none
  | [] => rfl
  | (k, r) :: rest => by
    by_cases h : k = id
    · simpa [List.filter_cons, h] using alookup_filter_ne id rest
    · simpa [List.filter_cons, h, alookup] using alookup_filter_ne id rest

theorem storeHas_storeDel_self (s : Store) (id : Nat) :
    storeHas (storeDel s id).1 id = false := by
  simp [storeHas, storeDel, alookup_filter_ne]

theorem purgeAll_alookup (id : Nat) :
    ∀ (st : List (Nat × Store)) (k : Nat),
      alookup (purgeAll id st).1 k = (alookup st k).map fun s => (storeDel s id).1
  | [], _ => rfl
  | (k0, s0) :: rest, k => by
    by_cases h : k0 = k
    · simp [purgeAll, alookup, h]
    · simp [purgeAll, alookup, h, purgeAll_alookup id rest k]

theorem mem_purgeAll_marks (id : Nat) :
    ∀ (st : List (Nat × Store)) (k : Nat) (s : Store),
      alookup st k = some s → storeHas s id = true → k ∈ (purgeAll id st).2
  | [], _, _, h, _ => by simp [alookup] at h
  | (k0, s0) :: rest, k, s, h, hs => by
    by_cases h0 : k0 = k
    · subst h0
      have h' : s0 = s := by simpa [alookup] using h
      subst h'
      have hd : (storeDel s0 id).2 = true := hs
      simp [purgeAll, hd]
    · simp only [alookup, if_neg h0] at h
      have ih := mem_purgeAll_marks id rest k s h hs
      by_cases hd : (storeDel s0 id).2 <;> simp [purgeAll, hd, ih]

/-! `mapFor` / `get` resolution lemmas. -/

theorem mapFor_some (w : World) (c : Comp) (s : Store)
    (h : alookup w.store c.key = some s) : w.mapFor c = (w, s) := by
  unfold World.mapFor
  rw [h]

theorem mapFor_none (w : World) (c : Comp) (h : alookup w.store c.key = none) :
    w.mapFor c = ({ w with store := w.store ++ [(c.key, [])] }, []) := by
  unfold World.mapFor
  rw [h]

theorem get_of_recOf (w : World) (c : Comp) (id : Nat) (r : Rec)
    (h : recOf w c id = some r) : w.get id c = (w, some r) := by
  unfold recOf at h
  cases hs : alookup w.store c.key with
  | none => rw [hs] at h; simp at h
  | some s =>
    rw [hs] at h
    have h' : storeGet s id = some r := h
    unfold World.get
    rw [mapFor_some w c s hs]
    simp [h']

theorem recOf_eq_none_iff (w : World) (c : Comp) (id : Nat) :
    recOf w c id = none ↔ (w.get id c).2 = none := by
  unfold recOf World.get
  cases hs : alookup w.store c.key with
  | none => simp [mapFor_none w c hs, storeGet, alookup]
  | some s => simp [mapFor_some w c s hs]

end ECS

namespace ECS

/-! Case-analysis equations for the mutation API. -/

theorem storeGet_mapFor (w : World) (c : Comp) (id : Nat) :
    storeGet (w.mapFor c).2 id = recOf w c id := by
  unfold World.mapFor recOf
  cases h : alookup w.store c.key <;> simp [h, storeGet, alookup]

theorem recOf_some_elim (w : World) (c : Comp) (id : Nat) (r : Rec)
    (h : recOf w c id = some r) :
    ∃ s, alookup w.store c.key = some s ∧ storeGet s id = some r := by
  unfold recOf at h
  cases hs : alookup w.store c.key with
  | none => rw [hs] at h; simp at h
  | some s =>
    rw [hs] at h
    exact ⟨s, rfl, h⟩

theorem destroy_dead_eq (w : World) (id : Nat) (h : id ∉ w.alive) :
    w.destroy id = (w, .ok (some false)) := by
  unfold World.destroy
  rw [if_neg h]

theorem destroy_strict_eq (w : World) (id : Nat) (hal : id ∈ w.alive)
    (ht : w.inTick = true) (hs : w.strict = true) :
    w.destroy id = (w, .error .strictMutation) := by
  unfold World.destroy
  rw [if_pos hal, ht, hs]
  simp

theorem add_dead_eq (w : World) (id : Nat) (c : Comp) (d : Rec)
    (h : id ∉ w.alive) : w.add id c d = (w, .error .notAlive) := by
  unfold World.add
  rw [if_neg h]

theorem add_strict_eq (w : World) (id : Nat) (c : Comp) (d : Rec)
    (hal : id ∈ w.alive) (ht : w.inTick = true) (hs : w.strict = true) :
    w.add id c d = (w, .error .strictMutation) := by
  unfold World.add
  rw [if_pos hal, ht, hs]
  simp

theorem add_vfail_eq (w : World) (id : Nat) (c : Comp) (d : Rec)
    (hal : id ∈ w.alive) (ht : w.inTick = false)
    (hok : (match c.validate with
            | some v => v (mergeRec c.defaults d)
            | none => true) = false) :
    w.add id c d = (w, .error (.validationFailed c.name)) := by
  unfold World.add
  rw [if_pos hal, ht]
  simp only [Bool.false_eq_true, if_false]
  rw [hok]
  simp

theorem remove_strict_eq (w : World) (id : Nat) (c : Comp)
    (ht : w.inTick = true) (hs : w.strict = true) :
    w.remove id c = (w, .error .strictMutation) := by
  unfold World.remove
  rw [ht, hs]
  simp

theorem set_strict_eq (w : World) (id : Nat) (c : Comp) (p : Rec)
    (ht : w.inTick = true) (hs : w.strict = true) :
    w.set id c p = (w, .error .strictMutation) := by
  unfold World.set
  rw [ht, hs]
  simp

theorem mutate_strict_eq (w : World) (id : Nat) (c : Comp) (f : Rec → Rec)
    (ht : w.inTick = true) (hs : w.strict = true) :
    w.mutate id c f = (w, .error .strictMutation) := by
  unfold World.mutate
  rw [ht, hs]
  simp

theorem set_missing_eq (w : World) (id : Nat) (c : Comp) (p : Rec)
    (ht : w.inTick = false) (h : recOf w c id = none) :
    w.set id c p = ((w.mapFor c).1, .error .missingComponent) := by
  have hg : (w.get id c).2 = none := (recOf_eq_none_iff w c id).mp h
  unfold World.set
  rw [ht]
  simp only [Bool.false_eq_true, if_false]
  rw [hg]
  rfl

theorem mutate_missing_eq (w : World) (id : Nat) (c : Comp) (f : Rec → Rec)
    (ht : w.inTick = false) (h : recOf w c id = none) :
    w.mutate id c f = ((w.mapFor c).1, .error .missingComponent) := by
  have hg : (w.get id c).2 = none := (recOf_eq_none_iff w c id).mp h
  unfold World.mutate
  rw [ht]
  simp only [Bool.false_eq_true, if_false]
  rw [hg]
  rfl

theorem set_vfail_eq (w : World) (id : Nat) (c : Comp) (p : Rec) (s : Store) (r : Rec)
    (ht : w.inTick = false) (hs : alookup w.store c.key = some s)
    (hr : storeGet s id = some r)
    (hok : (match c.validate with
            | some v => v (mergeRec r p)
            | none => true) = false) :
    w.set id c p = (w, .error (.validationFailed c.name)) := by
  have hrec : recOf w c id = some r := by unfold recOf; rw [hs]; exact hr
  have hget : w.get id c = (w, some r) := get_of_recOf w c id r hrec
  unfold World.set
  rw [ht]
  simp only [Bool.false_eq_true, if_false]
  rw [hget]
  simp only
  rw [hok]
  simp

theorem set_success_eq (w : World) (id : Nat) (c : Comp) (p : Rec) (s : Store) (r : Rec)
    (ht : w.inTick = false) (hs : alookup w.store c.key = some s)
    (hr : storeGet s id = some r)
    (hok : (match c.validate with
            | some v => v (mergeRec r p)
            | none => true) = true) :
    w.set id c p =
      (World.markChanged
        { w with store := setA w.store c.key (storeSet s id (mergeRec r p)) } c.key id,
        .ok (some (mergeRec r p))) := by
  have hrec : recOf w c id = some r := by unfold recOf; rw [hs]; exact hr
  have hget : w.get id c = (w, some r) := get_of_recOf w c id r hrec
  unfold World.set
  rw [ht]
  simp only [Bool.false_eq_true, if_false]
  rw [hget]
  simp only
  rw [hok]
  simp only [if_true]
  rw [mapFor_some w c s hs]
  simp [ht]

theorem mutate_success_eq (w : World) (id : Nat) (c : Comp) (f : Rec → Rec)
    (s : Store) (r : Rec)
    (ht : w.inTick = false) (hs : alookup w.store c.key = some s)
    (hr : storeGet s id = some r) :
    w.mutate id c f =
      (World.markChanged
        { w with store := setA w.store c.key (storeSet s id (f r)) } c.key id,
        .ok (some (f r))) := by
  have hrec : recOf w c id = some r := by unfold recOf; rw [hs]; exact hr
  have hget : w.get id c = (w, some r) := get_of_recOf w c id r hrec
  unfold World.mutate
  rw [ht]
  simp only [Bool.false_eq_true, if_false]
  rw [hget]
  simp only
  rw [mapFor_some w c s hs]
  simp [ht]

theorem tick_noSched_eq (sched : World → World) (dt : Int) (w : World)
    (h : w.schedInstalled = false) :
    World.tick sched dt w = (w, .error .noScheduler) := by
  unfold World.tick
  rw [h]
  simp

theorem has_false_of_stores (w : World) (id : Nat)
    (h : ∀ k s, alookup w.store k = some s → storeHas s id = false) (c : Comp) :
    (w.has id c).2 = false := by
  unfold World.has World.mapFor
  cases hc : alookup w.store c.key with
  | none => simp [hc, storeHas, alookup]
  | some s => simp [hc, h c.key s hc]

end ECS

namespace ECS

/-- C1: the claim requires that a query issued after any structural
mutation — `create` included — reflects the current membership, the
empty-terms query returning exactly the current alive set sorted
ascending, "because every structural change invalidates the entire query
cache".  The code's `World.create` (src/core.js lines 175-179) does not
call `_invalidateCaches`, contradicting the class contract comment
(lines 77-80) that counts `create` among structural mutations and says
the cache is "invalidated on any structural change".  Evaluation at the
failing input: on a fresh world, `query()` caches the empty alive list,
`create()` mints entity 1, and the next empty-terms query returns the
stale `[]` even though the alive set is `[1]`. -/
theorem c1_create_leaves_stale_cache :
    ((World.init false false).queryBase []).1.create.1.alive = [1] ∧
    sortNat ((World.init false false).queryBase []).1.create.1.alive = [1] ∧
    (((World.init false false).queryBase []).1.create.1.queryBase []).2 = [] := by
  refine ⟨by decide, by decide, by decide⟩

/-- C3 counterexample: `has` (and likewise `get`) on a component type
with no registered store mutates the store table, registering an empty
store — so the store table is not identical before and after the call,
contrary to the claim. -/
theorem c3_counterexample :
    ((World.init false false).has 1 cA).1.store ≠ (World.init false false).store := by
  decide

/-- C3 (amended): `get` and `has` never touch the query cache, change
table, command queue, alive set, free pool or id counter, are never
deferred, and `get` returns exactly the stored record; but both resolve
the store through `_mapFor`, which registers an empty store for a
previously-unseen component type (for an already-registered type they
change nothing at all). -/
theorem c3_get_has_pure (w : World) (id : Nat) (c : Comp) :
    (w.get id c).1 = (w.mapFor c).1 ∧
    (w.has id c).1 = (w.mapFor c).1 ∧
    (w.get id c).2 = recOf w c id ∧
    (w.mapFor c).1.cache = w.cache ∧
    (w.mapFor c).1.changed = w.changed ∧
    (w.mapFor c).1.cmd = w.cmd ∧
    (w.mapFor c).1.alive = w.alive ∧
    (w.mapFor c).1.free = w.free ∧
    (w.mapFor c).1.nextId = w.nextId ∧
    (w.mapFor c).1.inTick = w.inTick ∧
    ((alookup w.store c.key).isSome = true → (w.mapFor c).1 = w) ∧
    (alookup w.store c.key = none → (w.mapFor c).1.store = w.store ++ [(c.key, [])]) := by
  refine ⟨rfl, rfl, storeGet_mapFor w c id, ?_⟩
  cases hs : alookup w.store c.key with
  | none => rw [mapFor_none w c hs]; simp
  | some s => rw [mapFor_some w c s hs]; simp

/-- C3 witness: on a world whose `cA` store is already registered, `get`
leaves the world exactly unchanged. -/
theorem c3_witness : (wReg.get 1 cA).1 = wReg := by
  have h := c3_get_has_pure wReg 1 cA
  rw [h.1]
  exact h.2.2.2.2.2.2.2.2.2.2.1 (by decide)

/-- C4: `destroy(id)` returns `false` and changes nothing when `id` is
not alive; when `id` is alive and the call is outside a tick it purges
`id` from every registered store (marking each actual purge as a
change), removes `id` from the alive set, pushes `id` onto the free
pool, clears the entire query cache and returns `true` — after which
`has(id, C)` is `false` for every component type `C`. -/
theorem c4_destroy_spec (w : World) (id : Nat) :
    (id ∉ w.alive → w.destroy id = (w, .ok (some false))) ∧
    (id ∈ w.alive → w.inTick = false →
      (w.destroy id).2 = .ok (some true) ∧
      (w.destroy id).1.alive = w.alive.erase id ∧
      (w.destroy id).1.free = w.free ++ [id] ∧
      (w.destroy id).1.cache = [] ∧
      (∀ k s, alookup (w.destroy id).1.store k = some s → storeHas s id = false) ∧
      (∀ k s, alookup w.store k = some s → storeHas s id = true →
        id ∈ changedAt (w.destroy id).1 k) ∧
      (∀ c : Comp, ((w.destroy id).1.has id c).2 = false)) := by
  refine ⟨destroy_dead_eq w id, ?_⟩
  intro hal htick
  obtain ⟨ch, hch⟩ := foldl_markChanged_shape id (purgeAll id w.store).2
    { w with store := (purgeAll id w.store).1 }
  have hD : w.destroy id =
      ({ w with
          store := (purgeAll id w.store).1, changed := ch,
          alive := w.alive.erase id, free := w.free ++ [id], cache := [] },
        .ok (some true)) := by
    have hcond : ¬ (w.inTick = true) := by rw [htick]; simp
    unfold World.destroy
    rw [if_pos hal, if_neg hcond]
    simp only []
    rw [hch]
  have hpurged : ∀ k s, alookup (w.destroy id).1.store k = some s →
      storeHas s id = false := by
    intro k s hks
    rw [hD] at hks
    simp only at hks
    rw [purgeAll_alookup] at hks
    cases ho : alookup w.store k with
    | none => rw [ho] at hks; simp at hks
    | some s0 =>
      rw [ho] at hks
      have hx : (storeDel s0 id).1 = s := by simpa using hks
      have hh := storeHas_storeDel_self s0 id
      rwa [hx] at hh
  refine ⟨by rw [hD], by rw [hD], by rw [hD], by rw [hD], hpurged, ?_,
    fun c => has_false_of_stores (w.destroy id).1 id hpurged c⟩
  intro k s hks hhas
  have hm : k ∈ (purgeAll id w.store).2 := mem_purgeAll_marks id w.store k s hks hhas
  have h2 := mem_changedAt_foldl id (purgeAll id w.store).2
    { w with store := (purgeAll id w.store).1 } k hm
  rw [hch] at h2
  rw [hD]
  exact h2

/-- C4 witness: destroying the dead id 2 on `wV` is a no-op returning
false, and destroying the alive id 1 succeeds. -/
theorem c4_witness :
    World.destroy wV 2 = (wV, .ok (some false)) ∧
    (World.destroy wV 1).2 = .ok (some true) := by
  refine ⟨(c4_destroy_spec wV 2).1 (by decide), ((c4_destroy_spec wV 1).2 (by decide) rfl).1⟩

/-- C6: outside a tick, `set(id, Comp, patch)` fails with a
missing-component error when the entity lacks the component; otherwise
it validates the merged record before assignment — failing with a
validation error and leaving the stored record (and whole world)
unchanged when the validator rejects — and on success stores the merged
record, marks the component changed for `id`, and never invalidates the
query cache. -/
theorem c6_set_spec (w : World) (id : Nat) (c : Comp) (patch : Rec)
    (htick : w.inTick = false) :
    (recOf w c id = none →
      (w.set id c patch).2 = .error .missingComponent ∧
      (w.set id c patch).1.cache = w.cache) ∧
    (∀ r, recOf w c id = some r →
      (∀ v, c.validate = some v → v (mergeRec r patch) = false →
        w.set id c patch = (w, .error (.validationFailed c.name))) ∧
      ((match c.validate with
        | some v => v (mergeRec r patch)
        | none => true) = true →
        (w.set id c patch).2 = .ok (some (mergeRec r patch)) ∧
        recOf (w.set id c patch).1 c id = some (mergeRec r patch) ∧
        id ∈ changedAt (w.set id c patch).1 c.key ∧
        (w.set id c patch).1.cache = w.cache)) := by
  constructor
  · intro h
    rw [set_missing_eq w id c patch htick h]
    refine ⟨rfl, ?_⟩
    exact (c3_get_has_pure w id c).2.2.2.1
  · intro r hr
    obtain ⟨s, hs, hsg⟩ := recOf_some_elim w c id r hr
    constructor
    · intro v hv hvv
      exact set_vfail_eq w id c patch s r htick hs hsg (by rw [hv]; exact hvv)
    · intro hok
      rw [set_success_eq w id c patch s r htick hs hsg hok]
      obtain ⟨ch, hch⟩ := markChanged_shape
        { w with store := setA w.store c.key (storeSet s id (mergeRec r patch)) } c.key id
      refine ⟨rfl, ?_, ?_, ?_⟩
      · rw [hch]
        unfold recOf
        simp only
        rw [alookup_setA_self]
        simp [storeGet, storeSet, alookup_setA_self]
      · exact mem_changedAt_markChanged_self _ c.key id
      · rw [hch]

/-- C6 witness: on `wV` (entity 1 holds `cV` with `x = 3`), a patch that
violates the validator is rejected leaving the world unchanged, a patch
missing from a component-less entity errors, and a valid patch merges
and succeeds. -/
theorem c6_witness :
    World.set wV 1 cV [("x", -1)] = (wV, .error (.validationFailed "V")) ∧
    (World.set wV 2 cV [("x", 1)]).2 = .error .missingComponent ∧
    (World.set wV 1 cV [("x", 5)]).2 = .ok (some [("x", 5)]) := by
  refine ⟨?_, ?_, ?_⟩
  · exact ((c6_set_spec wV 1 cV [("x", -1)] rfl).2 [("x", 3)] (by decide)).1
      (fun r => (recLookup r "x").getD 0 ≥ 0) rfl (by decide)
  · exact ((c6_set_spec wV 2 cV [("x", 1)] rfl).1 (by decide)).1
  · have h := ((c6_set_spec wV 1 cV [("x", 5)] rfl).2 [("x", 3)] (by decide)).2 (by decide)
    have hm : mergeRec [("x", 3)] [("x", 5)] = [("x", (5 : Int))] := by decide
    rw [hm] at h
    exact h.1

/-- C9: every direct-API error is raised synchronously at the call site
and returned to the immediate caller, never deferred: NotAlive on `add`
(alive is checked before the deferral branch), ValidationFailed on
`add`/`set`, MissingComponent on `set`/`mutate`, IllegalMutationDuringTick
on every mutator in strict mode, NoScheduler on `tick`; and when the
offending operation is a deferred command applied during the end-of-tick
flush, the inner API call still raises the error to `_applyOp` (its
immediate caller), which neither re-defers nor extends the effect. -/
theorem c9_sync_errors :
    (∀ (w : World) (id : Nat) (c : Comp) (d : Rec), id ∉ w.alive →
      w.add id c d = (w, .error .notAlive)) ∧
    (∀ (w : World) (id : Nat) (c : Comp) (d : Rec) (v : Rec → Bool),
      id ∈ w.alive → w.inTick = false → c.validate = some v →
      v (mergeRec c.defaults d) = false →
      w.add id c d = (w, .error (.validationFailed c.name))) ∧
    (∀ (w : World) (id : Nat) (c : Comp) (p r : Rec) (v : Rec → Bool),
      w.inTick = false → recOf w c id = some r → c.validate = some v →
      v (mergeRec r p) = false →
      w.set id c p = (w, .error (.validationFailed c.name))) ∧
    (∀ (w : World) (id : Nat) (c : Comp) (p : Rec), w.inTick = false →
      recOf w c id = none →
      (w.set id c p).2 = .error .missingComponent ∧ (w.set id c p).1.cmd = w.cmd) ∧
    (∀ (w : World) (id : Nat) (c : Comp) (f : Rec → Rec), w.inTick = false →
      recOf w c id = none →
      (w.mutate id c f).2 = .error .missingComponent ∧ (w.mutate id c f).1.cmd = w.cmd) ∧
    (∀ w : World, w.inTick = true → w.strict = true →
      (∀ id, id ∈ w.alive → w.destroy id = (w, .error .strictMutation)) ∧
      (∀ id c d, id ∈ w.alive → w.add id c d = (w, .error .strictMutation)) ∧
      (∀ id c, w.remove id c = (w, .error .strictMutation)) ∧
      (∀ id c p, w.set id c p = (w, .error .strictMutation)) ∧
      (∀ id c f, w.mutate id c f = (w, .error .strictMutation))) ∧
    (∀ (sched : World → World) (dt : Int) (w : World), w.schedInstalled = false →
      World.tick sched dt w = (w, .error .noScheduler)) ∧
    (∀ (w : World) (id : Nat) (c : Comp) (d : Rec), id ∉ w.alive →
      (w.add id c d).2 = .error .notAlive ∧ w.applyOp (.addOp id c d) = w) := by
  refine ⟨fun w id c d h => add_dead_eq w id c d h, ?_, ?_, ?_, ?_, ?_, ?_, ?_⟩
  · intro w id c d v hal ht hv hvv
    exact add_vfail_eq w id c d hal ht (by rw [hv]; exact hvv)
  · intro w id c p r v ht hr hv hvv
    obtain ⟨s, hs, hsg⟩ := recOf_some_elim w c id r hr
    exact set_vfail_eq w id c p s r ht hs hsg (by rw [hv]; exact hvv)
  · intro w id c p ht h
    rw [set_missing_eq w id c p ht h]
    exact ⟨rfl, (c3_get_has_pure w id c).2.2.2.2.2.1⟩
  · intro w id c f ht h
    rw [mutate_missing_eq w id c f ht h]
    exact ⟨rfl, (c3_get_has_pure w id c).2.2.2.2.2.1⟩
  · intro w ht hs
    exact ⟨fun id hal => destroy_strict_eq w id hal ht hs,
      fun id c d hal => add_strict_eq w id c d hal ht hs,
      fun id c => remove_strict_eq w id c ht hs,
      fun id c p => set_strict_eq w id c p ht hs,
      fun id c f => mutate_strict_eq w id c f ht hs⟩
  · exact fun sched dt w h => tick_noSched_eq sched dt w h
  · intro w id c d h
    constructor
    · rw [add_dead_eq w id c d h]
    · show (w.add id c d).1 = w
      rw [add_dead_eq w id c d h]

/-- C9 witness: concrete instances of the error equations. -/
theorem c9_witness :
    World.add wV 2 cA [] = (wV, .error .notAlive) ∧
    World.set wV 1 cV [("x", -3)] = (wV, .error (.validationFailed "V")) ∧
    World.tick (fun w => w) 1 wV = (wV, .error .noScheduler) ∧
    World.applyOp wV (.addOp 2 cA []) = wV := by
  have h := c9_sync_errors
  refine ⟨h.1 wV 2 cA [] (by decide), ?_, h.2.2.2.2.2.2.1 (fun w => w) 1 wV rfl,
    (h.2.2.2.2.2.2.2 wV 2 cA [] (by decide)).2⟩
  exact h.2.2.1 wV 1 cV [("x", -3)] [("x", 3)]
    (fun r => (recLookup r "x").getD 0 ≥ 0) rfl (by decide) rfl (by decide)

/-- C10: `mutate(id, Comp, fn)` never invokes the component's validator:
outside a tick, on an entity holding the component, it always succeeds —
writing `fn`'s result into the store, marking the component changed and
returning the record — even when the result is a record the validator
rejects, while a `set` call whose merged record equals that same result
fails with a validation error. -/
theorem c10_mutate_skips_validation (w : World) (id : Nat) (c : Comp)
    (f : Rec → Rec) (r : Rec) (v : Rec → Bool)
    (htick : w.inTick = false) (hr : recOf w c id = some r)
    (hv : c.validate = some v) (hrej : v (f r) = false) :
    (w.mutate id c f).2 = .ok (some (f r)) ∧
    recOf (w.mutate id c f).1 c id = some (f r) ∧
    id ∈ changedAt (w.mutate id c f).1 c.key ∧
    (∀ patch : Rec, mergeRec r patch = f r →
      (w.set id c patch).2 = .error (.validationFailed c.name)) := by
  obtain ⟨s, hs, hsg⟩ := recOf_some_elim w c id r hr
  rw [mutate_success_eq w id c f s r htick hs hsg]
  obtain ⟨ch, hch⟩ := markChanged_shape
    { w with store := setA w.store c.key (storeSet s id (f r)) } c.key id
  refine ⟨rfl, ?_, mem_changedAt_markChanged_self _ c.key id, ?_⟩
  · rw [hch]
    unfold recOf
    simp only
    rw [alookup_setA_self]
    simp [storeGet, storeSet, alookup_setA_self]
  · intro patch hp
    rw [set_vfail_eq w id c patch s r htick hs hsg (by rw [hv, hp]; exact hrej)]

/-- C10 witness: on `wV`, a mutation writing `x = -2` (which the
validator would reject) succeeds, while the equivalent `set` fails. -/
theorem c10_witness :
    (World.mutate wV 1 cV fun _ => [("x", -2)]).2 = .ok (some [("x", -2)]) ∧
    (World.set wV 1 cV [("x", -2)]).2 = .error (.validationFailed "V") := by
  have h := c10_mutate_skips_validation wV 1 cV (fun _ => [("x", -2)]) [("x", 3)]
    (fun r => (recLookup r "x").getD 0 ≥ 0) rfl (by decide) rfl (by decide)
  refine ⟨h.1, ?_⟩
  have h2 := h.2.2.2 [("x", -2)] (by decide)
  rw [h2]
  rfl

end ECS

namespace ECS

/-! Flush lemmas (JS `World.tick` lines 151-161). -/

theorem flushCmds_take_drop (w : World) (h : w.cmd ≠ []) :
    w.flushCmds =
      { ((w.cmd.take (min 1000 w.cmd.length)).foldl World.applyOp
          { w with cmd := [], inTick := false }) with
        inTick := w.inTick,
        cmd := ((w.cmd.take (min 1000 w.cmd.length)).foldl World.applyOp
          { w with cmd := [], inTick := false }).cmd ++
            w.cmd.drop (min 1000 w.cmd.length) } := by
  have hne : ¬ (w.cmd.isEmpty = true) := by
    simp only [List.isEmpty_iff]
    exact h
  unfold World.flushCmds
  rw [if_neg hne]
  simp only []
  by_cases hlt : min 1000 w.cmd.length < w.cmd.length
  · rw [if_pos hlt]
  · rw [if_neg hlt]
    have hmin : min 1000 w.cmd.length = w.cmd.length :=
      le_antisymm (min_le_right _ _) (not_lt.mp hlt)
    rw [hmin, List.drop_length, List.append_nil]

theorem foldl_applyOp_replicate (op : Op) :
    ∀ (n : Nat) (w : World), w.applyOp op = w →
      (List.replicate n op).foldl World.applyOp w = w
  | 0, _, _ => rfl
  | n + 1, w, h => by
    rw [List.replicate_succ, List.foldl_cons, h]
    exact foldl_applyOp_replicate op n w h

theorem applyOp_destroy_dead (w : World) (id : Nat) (h : id ∉ w.alive) :
    w.applyOp (.destroyOp id) = w := by
  show (w.destroy id).1 = w
  rw [destroy_dead_eq w id h]

set_option maxRecDepth 8000 in
/-- C2 counterexample: flush a queue of 1001 commands whose first
command is a queued callback that enqueues `opX` during the drain.  The
drain applies the first 1000 commands, then pushes the remainder
(`opLast`, enqueued before `opX` existed) *behind* the drain-enqueued
`opX` (`this._cmd.push(...cmds.slice(limit))` runs after the drain).
The resulting queue `[opX, opLast]` is not the enqueue-order
`[opLast, opX]` the claim requires, so relative pending order is not
preserved and drain-enqueued commands do not join the tail. -/
theorem c2_counterexample :
    (World.tick (fun w => w) 0 wC2).1.cmd = [opX, opLast] ∧
    opX ≠ opLast ∧ ([opX, opLast] : List Op) ≠ [opLast, opX] := by
  refine ⟨?_, by simp [opX, opLast], by simp [opX, opLast]⟩
  have hQ : (wC2.beginTick 0).cmd =
      Op.fnOp [opX] :: (List.replicate 999 opNop ++ [opLast]) := rfl
  have hne : (wC2.beginTick 0).cmd ≠ [] := by rw [hQ]; simp
  have hlen : (wC2.beginTick 0).cmd.length = 1001 := by
    rw [hQ]
    simp only [List.length_cons, List.length_append, List.length_replicate]
    decide
  have hmin : min 1000 (wC2.beginTick 0).cmd.length = 1000 := by
    rw [hlen]
    decide
  have htake : (wC2.beginTick 0).cmd.take 1000 =
      Op.fnOp [opX] :: List.replicate 999 opNop := by
    rw [hQ, show (1000 : Nat) = 999 + 1 from rfl, List.take_succ_cons,
      List.take_left' (by simp : (List.replicate 999 opNop).length = 999)]
  have hdrop : (wC2.beginTick 0).cmd.drop 1000 = [opLast] := by
    rw [hQ, show (1000 : Nat) = 999 + 1 from rfl, List.drop_succ_cons,
      List.drop_left' (by simp : (List.replicate 999 opNop).length = 999)]
  have hcmd := congrArg World.cmd (flushCmds_take_drop (wC2.beginTick 0) hne)
  simp only at hcmd
  rw [hmin, htake, hdrop, List.foldl_cons] at hcmd
  have hstep1 : World.applyOp { wC2.beginTick 0 with cmd := [], inTick := false }
      (Op.fnOp [opX]) = { wC2.beginTick 0 with cmd := [opX], inTick := false } := rfl
  rw [hstep1] at hcmd
  have halive : ({ wC2.beginTick 0 with cmd := [opX], inTick := false } : World).alive = [] := rfl
  rw [foldl_applyOp_replicate opNop 999 _
    (applyOp_destroy_dead _ 5 (by rw [halive]; simp))] at hcmd
  show ((wC2.beginTick 0).flushCmds).cmd = [opX, opLast]
  rw [hcmd]
  rfl

/-- C2 (amended): at the end of a tick the deferred queue is drained in
FIFO order (the drain is a left fold over the queue prefix), applying
exactly the first `min(1000, n)` of the `n` pending commands, and the
remainder is pushed back for later flushes — but it is appended *after*
any commands enqueued during the drain itself, so drain-enqueued
commands run before the pushed-back remainder rather than joining the
tail behind it. -/
theorem c2_flush_spec (w : World) (h : w.cmd ≠ []) :
    World.flushCmds w =
      { ((w.cmd.take (min 1000 w.cmd.length)).foldl World.applyOp
          { w with cmd := [], inTick := false }) with
        inTick := w.inTick,
        cmd := ((w.cmd.take (min 1000 w.cmd.length)).foldl World.applyOp
          { w with cmd := [], inTick := false }).cmd ++
            w.cmd.drop (min 1000 w.cmd.length) } ∧
    min 1000 w.cmd.length ≤ 1000 ∧
    (w.cmd.take (min 1000 w.cmd.length)).length = min 1000 w.cmd.length ∧
    (w.cmd.length ≤ 1000 → min 1000 w.cmd.length = w.cmd.length ∧
      w.cmd.drop (min 1000 w.cmd.length) = []) ∧
    (∀ (op : Op) (ops : List Op) (w' : World),
      (op :: ops).foldl World.applyOp w' = ops.foldl World.applyOp (w'.applyOp op)) ∧
    (∀ (sched : World → World) (dt : Int) (w0 : World), w0.schedInstalled = true →
      (World.tick sched dt w0).1 =
        { (sched (w0.beginTick dt)).flushCmds with changed := [], inTick := false }) := by
  refine ⟨flushCmds_take_drop w h, min_le_left _ _, ?_, ?_, fun op ops w' => rfl, ?_⟩
  · rw [List.length_take]
    exact min_eq_left (min_le_right _ _)
  · intro hle
    have hmin : min 1000 w.cmd.length = w.cmd.length := min_eq_right hle
    exact ⟨hmin, by rw [hmin, List.drop_length]⟩
  · intro sched dt w0 hin
    unfold World.tick
    rw [hin]
    rfl

/-- C2 witness: flushing a singleton queue applies its one command (a
no-op destroy) and leaves an empty queue. -/
theorem c2_witness :
    World.flushCmds { World.init false false with cmd := [opNop] } =
      World.init false false := by
  have hc := (c2_flush_spec { World.init false false with cmd := [opNop] }
    (by simp)).1
  rw [hc]
  rfl

end ECS

namespace ECS

/-! Sortedness lemmas for `sortNat` / `entityIds`. -/

theorem sortNat_sorted (l : List Nat) : (sortNat l).Sorted (· ≤ ·) :=
  List.sorted_insertionSort _ l

theorem mem_sortNat (l : List Nat) (x : Nat) : x ∈ sortNat l ↔ x ∈ l :=
  (List.perm_insertionSort _ l).mem_iff

theorem sortNat_nodup {l : List Nat} (h : l.Nodup) : (sortNat l).Nodup :=
  ((List.perm_insertionSort _ l).nodup_iff).mpr h

theorem sortNat_sorted_lt {l : List Nat} (h : l.Nodup) : (sortNat l).Sorted (· < ·) :=
  (sortNat_sorted l).lt_of_le (sortNat_nodup h)

theorem alookup_isSome_iff {κ υ : Type} [DecidableEq κ] :
    ∀ (l : List (κ × υ)) (k : κ), (alookup l k).isSome = true ↔ k ∈ l.map Prod.fst
  | [], k => by simp [alookup]
  | (k0, v0) :: rest, k => by
    by_cases h : k0 = k
    · simp [alookup, h]
    · simp [alookup, h, alookup_isSome_iff rest k, Ne.symm h]

/-! Two-pointer intersection correctness. -/

theorem intersectSorted_eq_filter :
    ∀ a b : List Nat, a.Sorted (· < ·) → b.Sorted (· < ·) →
      intersectSorted a b = a.filter fun x => decide (x ∈ b) := by
  intro a b
  induction a, b using intersectSorted.induct with
  | case1 x =>
    intro _ _
    simp [intersectSorted]
  | case2 h t =>
    intro _ _
    simp [intersectSorted]
  | case3 as b bs ih =>
    intro ha hb
    rw [List.sorted_cons] at ha hb
    have hstep : intersectSorted (b :: as) (b :: bs) = b :: intersectSorted as bs := by
      simp [intersectSorted]
    rw [hstep, ih ha.2 hb.2, List.filter_cons]
    have hbmem : decide (b ∈ b :: bs) = true := by simp
    rw [hbmem]
    simp only [if_true]
    congr 1
    apply List.filter_congr
    intro x hx
    have hbx : b < x := ha.1 x hx
    apply decide_eq_decide.mpr
    rw [List.mem_cons]
    constructor
    · exact Or.inr
    · rintro (rfl | h1)
      · omega
      · exact h1
  | case4 a as b bs hne hlt ih =>
    intro ha hb
    have hstep : intersectSorted (a :: as) (b :: bs) = intersectSorted as (b :: bs) := by
      simp [intersectSorted, hne, hlt]
    rw [hstep, ih (List.sorted_cons.mp ha).2 hb, List.filter_cons]
    have hnm : a ∉ b :: bs := by
      intro hm
      rcases List.mem_cons.mp hm with h1 | h1
      · exact hne h1
      · have := (List.sorted_cons.mp hb).1 a h1
        omega
    simp [hnm]
  | case5 a as b bs hne hge ih =>
    intro ha hb
    have hstep : intersectSorted (a :: as) (b :: bs) = intersectSorted (a :: as) bs := by
      simp [intersectSorted, hne, hge]
    rw [hstep, ih ha (List.sorted_cons.mp hb).2]
    apply List.filter_congr
    intro x hx
    have hba : b < a := by omega
    have hbx : b < x := by
      rcases List.mem_cons.mp hx with h1 | h1
      · omega
      · have := (List.sorted_cons.mp ha).1 x h1
        omega
    apply decide_eq_decide.mpr
    rw [List.mem_cons]
    constructor
    · exact Or.inr
    · rintro (rfl | h1)
      · omega
      · exact h1

theorem mem_intersectSorted (a b : List Nat) (ha : a.Sorted (· < ·))
    (hb : b.Sorted (· < ·)) (x : Nat) :
    x ∈ intersectSorted a b ↔ x ∈ a ∧ x ∈ b := by
  rw [intersectSorted_eq_filter a b ha hb]
  simp

theorem sorted_intersectSorted (a b : List Nat) (ha : a.Sorted (· < ·))
    (hb : b.Sorted (· < ·)) : (intersectSorted a b).Sorted (· < ·) := by
  rw [intersectSorted_eq_filter a b ha hb]
  exact ha.filter _

theorem intersectSorted_nil (b : List Nat) : intersectSorted [] b = [] := by
  cases b <;> simp [intersectSorted]

theorem foldl_intersect_nil :
    ∀ ls : List (List Nat), ls.foldl intersectSorted [] = []
  | [] => rfl
  | l :: ls => by
    rw [List.foldl_cons, intersectSorted_nil]
    exact foldl_intersect_nil ls

theorem foldl_intersect_spec :
    ∀ (ls : List (List Nat)) (a : List Nat), a.Sorted (· < ·) →
      (∀ l ∈ ls, l.Sorted (· < ·)) →
      (ls.foldl intersectSorted a).Sorted (· < ·) ∧
      (∀ x, x ∈ ls.foldl intersectSorted a ↔ x ∈ a ∧ ∀ l ∈ ls, x ∈ l)
  | [], a, ha, _ => ⟨ha, by simp⟩
  | l :: ls, a, ha, hls => by
    have hl : l.Sorted (· < ·) := hls l (by simp)
    have h1 : (intersectSorted a l).Sorted (· < ·) := sorted_intersectSorted a l ha hl
    obtain ⟨hs, hm⟩ := foldl_intersect_spec ls (intersectSorted a l) h1
      (fun l' hl' => hls l' (by simp [hl']))
    refine ⟨hs, ?_⟩
    intro x
    rw [List.foldl_cons, hm x, mem_intersectSorted a l ha hl]
    simp only [List.forall_mem_cons]
    tauto

/-! Query-engine helper observations. -/

theorem idsOf_sorted_lt (w : World) (c : Comp)
    (hnd : ∀ k s, alookup w.store k = some s → (s.map Prod.fst).Nodup) :
    (idsOf w c).Sorted (· < ·) := by
  unfold idsOf entityIds
  cases h : alookup w.store c.key with
  | none => simp [sortNat, List.insertionSort]
  | some s => exact sortNat_sorted_lt (hnd _ _ h)

theorem mem_idsOf (w : World) (c : Comp) (id : Nat) :
    id ∈ idsOf w c ↔ storeHas ((alookup w.store c.key).getD []) id = true := by
  unfold idsOf entityIds storeHas
  rw [mem_sortNat, alookup_isSome_iff]

theorem idsOf_mapFor (w : World) (c c' : Comp) :
    idsOf (w.mapFor c).1 c' = idsOf w c' := by
  unfold World.mapFor
  cases h : alookup w.store c.key with
  | some s => simp only [h]
  | none =>
    simp only [h]
    unfold idsOf
    cases h2 : alookup w.store c'.key with
    | some s2 =>
      show entityIds ((alookup (w.store ++ [(c.key, [])]) c'.key).getD []) = _
      rw [alookup_append_left _ _ _ _ h2]
    | none =>
      show entityIds ((alookup (w.store ++ [(c.key, [])]) c'.key).getD []) = _
      rw [alookup_append_right _ _ _ h2]
      by_cases h3 : c.key = c'.key <;> simp [alookup, h3]

theorem entityIds_mapFor (w : World) (c : Comp) :
    entityIds (w.mapFor c).2 = idsOf w c := by
  unfold World.mapFor idsOf
  cases h : alookup w.store c.key <;> simp [h]

theorem entityListLoop_some :
    ∀ (cs : List Comp) (w : World) (a : List Nat),
      (w.entityListLoop cs (some a)).2 =
        some ((cs.map (idsOf w)).foldl intersectSorted a)
  | [], _, _ => rfl
  | c :: cs, w, a => by
    simp only [World.entityListLoop]
    rw [entityIds_mapFor w c]
    by_cases hr : (intersectSorted a (idsOf w c)).isEmpty
    · rw [if_pos hr]
      have hr' : intersectSorted a (idsOf w c) = [] := by
        simpa [List.isEmpty_iff] using hr
      simp only [List.map_cons, List.foldl_cons]
      rw [hr', foldl_intersect_nil]
    · rw [if_neg hr]
      rw [entityListLoop_some cs (w.mapFor c).1 (intersectSorted a (idsOf w c))]
      have hfe : idsOf (w.mapFor c).1 = idsOf w := funext fun c' => idsOf_mapFor w c c'
      rw [hfe]
      simp only [List.map_cons, List.foldl_cons]

theorem entityListLoop_none (w : World) (c : Comp) (cs : List Comp) :
    (w.entityListLoop (c :: cs) none).2 =
      some ((cs.map (idsOf w)).foldl intersectSorted (idsOf w c)) := by
  simp only [World.entityListLoop]
  rw [entityIds_mapFor w c]
  by_cases hr : (idsOf w c).isEmpty
  · rw [if_pos hr]
    have hr' : idsOf w c = [] := by simpa [List.isEmpty_iff] using hr
    rw [hr', foldl_intersect_nil]
  · rw [if_neg hr]
    rw [entityListLoop_some cs (w.mapFor c).1 (idsOf w c)]
    have hfe : idsOf (w.mapFor c).1 = idsOf w := funext fun c' => idsOf_mapFor w c c'
    rw [hfe]

end ECS

namespace ECS

/-- C7: the base id list of a query is the cached list for its key when
one is present (used as-is, with no recomputation); otherwise it is the
successive two-pointer sorted-merge intersection of the positive
components' `entityIds()` lists (each sorted ascending; the loop's
short-circuit on an empty intermediate does not change the value, which
the fold form shows), a query with no positive terms yields all alive
ids sorted ascending, and the computed list is stored in the cache under
the key.  The membership clause states that the intersection is exact:
an id is listed iff every positive component's store holds it. -/
theorem c7_query_base (w : World) (terms : List Term)
    (hnd : ∀ k s, alookup w.store k = some s → (s.map Prod.fst).Nodup) :
    (∀ s : Store, (entityIds s).Sorted (· ≤ ·)) ∧
    (∀ (a b : List Nat) (x : Nat), a.Sorted (· < ·) → b.Sorted (· < ·) →
      (x ∈ intersectSorted a b ↔ x ∈ a ∧ x ∈ b)) ∧
    (∀ l0, alookup w.cache (normalizeTerms terms).cacheKey = some l0 →
      w.queryBase terms = (w, l0)) ∧
    (alookup w.cache (normalizeTerms terms).cacheKey = none →
      alookup (w.queryBase terms).1.cache (normalizeTerms terms).cacheKey =
        some (w.queryBase terms).2 ∧
      ((normalizeTerms terms).all = [] → (w.queryBase terms).2 = sortNat w.alive) ∧
      (∀ c0 cs, (normalizeTerms terms).all = c0 :: cs →
        (w.queryBase terms).2 =
          (cs.map (idsOf w)).foldl intersectSorted (idsOf w c0) ∧
        (w.queryBase terms).2.Sorted (· < ·) ∧
        (∀ id, id ∈ (w.queryBase terms).2 ↔
          ∀ c ∈ (normalizeTerms terms).all,
            storeHas ((alookup w.store c.key).getD []) id = true))) := by
  refine ⟨fun s => sortNat_sorted _, fun a b x ha hb => mem_intersectSorted a b ha hb x,
    ?_, ?_⟩
  · intro l0 h
    unfold World.queryBase World.cachedEntityList
    simp only []
    rw [h]
  · intro hm
    have hQB : w.queryBase terms =
        ({ (w.entityListLoop (normalizeTerms terms).all none).1 with
           cache := setA (w.entityListLoop (normalizeTerms terms).all none).1.cache
             (normalizeTerms terms).cacheKey
             (if (normalizeTerms terms).all.isEmpty
              then sortNat (w.entityListLoop (normalizeTerms terms).all none).1.alive
              else ((w.entityListLoop (normalizeTerms terms).all none).2.getD [])) },
         if (normalizeTerms terms).all.isEmpty
         then sortNat (w.entityListLoop (normalizeTerms terms).all none).1.alive
         else ((w.entityListLoop (normalizeTerms terms).all none).2.getD [])) := by
      unfold World.queryBase World.cachedEntityList
      simp only []
      rw [hm]
    refine ⟨?_, ?_, ?_⟩
    · rw [hQB]
      exact alookup_setA_self _ _ _
    · intro hall
      rw [hQB, hall]
      simp [World.entityListLoop]
    · intro c0 cs hall
      have hfold : (w.queryBase terms).2 =
          (cs.map (idsOf w)).foldl intersectSorted (idsOf w c0) := by
        rw [hQB, hall]
        simp only [List.isEmpty_cons, if_false]
        rw [entityListLoop_none w c0 cs]
        rfl
      have hsorted : ∀ c : Comp, (idsOf w c).Sorted (· < ·) :=
        fun c => idsOf_sorted_lt w c hnd
      obtain ⟨hs, hmem⟩ := foldl_intersect_spec (cs.map (idsOf w)) (idsOf w c0)
        (hsorted c0) (by intro l hl; obtain ⟨c, _, rfl⟩ := List.mem_map.mp hl; exact hsorted c)
      refine ⟨hfold, by rw [hfold]; exact hs, ?_⟩
      intro id
      rw [hfold, hmem id, hall]
      simp only [List.forall_mem_cons]
      constructor
      · rintro ⟨h0, hrest⟩
        exact ⟨(mem_idsOf w c0 id).mp h0, fun c hc =>
          (mem_idsOf w c id).mp (hrest (idsOf w c) (List.mem_map.mpr ⟨c, hc, rfl⟩))⟩
      · rintro ⟨h0, hrest⟩
        refine ⟨(mem_idsOf w c0 id).mpr h0, ?_⟩
        intro l hl
        obtain ⟨c, hc, rfl⟩ := List.mem_map.mp hl
        exact (mem_idsOf w c id).mpr (hrest c hc)

/-- C7 witness: on `wQ` (only entity 2 carries `cB`) a single-term query
computes `[2]` on a cache miss. -/
theorem c7_witness : (wQ.queryBase [Term.comp cB]).2 = [2] := by
  have hnd : ∀ (k : Nat) (s : Store), alookup wQ.store k = some s →
      (s.map Prod.fst).Nodup := by
    intro k s h
    have hw : wQ.store = [(cB.key, [(2, [])])] := rfl
    rw [hw] at h
    by_cases hk : cB.key = k
    · rw [show alookup [(cB.key, [(2, [])])] k = some [(2, [])] from by
        simp [alookup, hk]] at h
      cases h
      decide
    · rw [show alookup [(cB.key, [(2, [])])] k = none from by simp [alookup, hk]] at h
      cases h
  have h := c7_query_base wQ [Term.comp cB] hnd
  have hc := ((h.2.2.2 rfl).2.2 cB [] rfl).1
  rw [hc]
  decide

end ECS

namespace ECS

/-! Field-preservation lemmas for the id-space invariant. -/

theorem markChanged_free (w : World) (ck id : Nat) :
    (w.markChanged ck id).free = w.free := by
  obtain ⟨ch, h⟩ := markChanged_shape w ck id
  rw [h]

theorem markChanged_alive (w : World) (ck id : Nat) :
    (w.markChanged ck id).alive = w.alive := by
  obtain ⟨ch, h⟩ := markChanged_shape w ck id
  rw [h]

theorem markChanged_nextId (w : World) (ck id : Nat) :
    (w.markChanged ck id).nextId = w.nextId := by
  obtain ⟨ch, h⟩ := markChanged_shape w ck id
  rw [h]

theorem mapFor_fst_free (w : World) (c : Comp) : (w.mapFor c).1.free = w.free := by
  unfold World.mapFor
  split <;> rfl

theorem mapFor_fst_alive (w : World) (c : Comp) : (w.mapFor c).1.alive = w.alive := by
  unfold World.mapFor
  split <;> rfl

theorem mapFor_fst_nextId (w : World) (c : Comp) : (w.mapFor c).1.nextId = w.nextId := by
  unfold World.mapFor
  split <;> rfl

theorem IdP_congr (w w' : World) (hf : w'.free = w.free) (ha : w'.alive = w.alive)
    (hn : w'.nextId = w.nextId) (h : IdP w) : IdP w' := by
  constructor
  · rw [hn]; exact h.pos
  · rw [ha]; exact h.aliveNd
  · rw [hf]; exact h.freeNd
  · intro id hid
    rw [hf] at hid
    rw [ha]
    exact h.disj id hid
  · intro id hid
    rw [hf, ha] at hid
    rw [hn]
    exact h.bound id hid
  · intro id h1 h2
    rw [hn] at h2
    rw [hf, ha]
    exact h.cover id h1 h2

theorem add_fields (w : World) (id : Nat) (c : Comp) (d : Rec) :
    (w.add id c d).1.free = w.free ∧ (w.add id c d).1.alive = w.alive ∧
      (w.add id c d).1.nextId = w.nextId := by
  unfold World.add
  split
  · split
    · split
      · exact ⟨rfl, rfl, rfl⟩
      · exact ⟨rfl, rfl, rfl⟩
    · simp only []
      split
      · refine ⟨?_, ?_, ?_⟩ <;>
          simp [markChanged_free, markChanged_alive, markChanged_nextId,
            mapFor_fst_free, mapFor_fst_alive, mapFor_fst_nextId]
      · exact ⟨rfl, rfl, rfl⟩
  · exact ⟨rfl, rfl, rfl⟩

theorem remove_fields (w : World) (id : Nat) (c : Comp) :
    (w.remove id c).1.free = w.free ∧ (w.remove id c).1.alive = w.alive ∧
      (w.remove id c).1.nextId = w.nextId := by
  unfold World.remove
  split
  · split
    · exact ⟨rfl, rfl, rfl⟩
    · exact ⟨rfl, rfl, rfl⟩
  · simp only []
    split
    · refine ⟨?_, ?_, ?_⟩ <;>
        simp [markChanged_free, markChanged_alive, markChanged_nextId,
          mapFor_fst_free, mapFor_fst_alive, mapFor_fst_nextId]
    · refine ⟨?_, ?_, ?_⟩ <;>
        simp [mapFor_fst_free, mapFor_fst_alive, mapFor_fst_nextId]

theorem set_fields (w : World) (id : Nat) (c : Comp) (p : Rec) :
    (w.set id c p).1.free = w.free ∧ (w.set id c p).1.alive = w.alive ∧
      (w.set id c p).1.nextId = w.nextId := by
  unfold World.set World.get
  split
  · split
    · exact ⟨rfl, rfl, rfl⟩
    · exact ⟨rfl, rfl, rfl⟩
  · simp only []
    split
    · refine ⟨?_, ?_, ?_⟩ <;>
        simp [mapFor_fst_free, mapFor_fst_alive, mapFor_fst_nextId]
    · split
      · refine ⟨?_, ?_, ?_⟩ <;>
          simp [markChanged_free, markChanged_alive, markChanged_nextId,
            mapFor_fst_free, mapFor_fst_alive, mapFor_fst_nextId]
      · refine ⟨?_, ?_, ?_⟩ <;>
          simp [mapFor_fst_free, mapFor_fst_alive, mapFor_fst_nextId]

theorem mutate_fields (w : World) (id : Nat) (c : Comp) (f : Rec → Rec) :
    (w.mutate id c f).1.free = w.free ∧ (w.mutate id c f).1.alive = w.alive ∧
      (w.mutate id c f).1.nextId = w.nextId := by
  unfold World.mutate World.get
  split
  · split
    · exact ⟨rfl, rfl, rfl⟩
    · exact ⟨rfl, rfl, rfl⟩
  · simp only []
    split
    · refine ⟨?_, ?_, ?_⟩ <;>
        simp [mapFor_fst_free, mapFor_fst_alive, mapFor_fst_nextId]
    · refine ⟨?_, ?_, ?_⟩ <;>
        simp [markChanged_free, markChanged_alive, markChanged_nextId,
          mapFor_fst_free, mapFor_fst_alive, mapFor_fst_nextId]

theorem entityListLoop_fields :
    ∀ (cs : List Comp) (w : World) (acc : Option (List Nat)),
      (w.entityListLoop cs acc).1.free = w.free ∧
      (w.entityListLoop cs acc).1.alive = w.alive ∧
      (w.entityListLoop cs acc).1.nextId = w.nextId
  | [], _, _ => ⟨rfl, rfl, rfl⟩
  | c :: cs, w, acc => by
    simp only [World.entityListLoop]
    split
    · exact ⟨mapFor_fst_free w c, mapFor_fst_alive w c, mapFor_fst_nextId w c⟩
    · obtain ⟨h1, h2, h3⟩ := entityListLoop_fields cs (w.mapFor c).1 _
      exact ⟨h1.trans (mapFor_fst_free w c), h2.trans (mapFor_fst_alive w c),
        h3.trans (mapFor_fst_nextId w c)⟩

theorem queryBase_fields (w : World) (terms : List Term) :
    (w.queryBase terms).1.free = w.free ∧ (w.queryBase terms).1.alive = w.alive ∧
      (w.queryBase terms).1.nextId = w.nextId := by
  unfold World.queryBase World.cachedEntityList
  simp only []
  split
  · exact ⟨rfl, rfl, rfl⟩
  · obtain ⟨h1, h2, h3⟩ :=
      entityListLoop_fields (normalizeTerms terms).all w none
    exact ⟨h1, h2, h3⟩

end ECS

namespace ECS

/-! `pushUnique` (JS `Set.add`) lemmas. -/

theorem pushUnique_of_not_mem {l : List Nat} {x : Nat} (h : x ∉ l) :
    pushUnique l x = l ++ [x] := if_neg h

theorem pushUnique_of_mem {l : List Nat} {x : Nat} (h : x ∈ l) :
    pushUnique l x = l := if_pos h

theorem mem_pushUnique {l : List Nat} {x y : Nat} :
    y ∈ pushUnique l x ↔ y ∈ l ∨ y = x := by
  unfold pushUnique
  split
  · constructor
    · exact Or.inl
    · rintro (h1 | rfl)
      · exact h1
      · assumption
  · simp

/-! Preservation of the id-space invariant by every API call. -/

theorem create_spec (w : World) (h : IdP w) :
    IdP w.create.1 ∧ w.create.2 ∉ w.alive ∧ 1 ≤ w.create.2 := by
  unfold World.create
  cases hg : w.free.getLast? with
  | none =>
    have hfe : w.free = [] := by
      by_contra hne
      rw [List.getLast?_eq_getLast_of_ne_nil hne] at hg
      simp at hg
    have hnm : w.nextId ∉ w.alive := fun hm => by
      have := (h.bound w.nextId (Or.inr hm)).2
      omega
    simp only []
    refine ⟨⟨?_, ?_, ?_, ?_, ?_, ?_⟩, hnm, h.pos⟩ <;> dsimp only
    · have := h.pos
      omega
    · rw [pushUnique_of_not_mem hnm]
      exact h.aliveNd.append (List.nodup_singleton _)
        (fun x hx hx' => by simp at hx'; subst hx'; exact hnm hx)
    · exact h.freeNd
    · intro x hx
      rw [hfe] at hx
      simp at hx
    · intro x hx
      rcases hx with hx | hx
      · rw [hfe] at hx
        simp at hx
      · rw [pushUnique_of_not_mem hnm] at hx
        rcases List.mem_append.mp hx with h1 | h1
        · have := h.bound x (Or.inr h1)
          omega
        · simp at h1
          subst h1
          have := h.pos
          omega
    · intro x h1 h2
      by_cases hxn : x = w.nextId
      · subst hxn
        right
        rw [pushUnique_of_not_mem hnm]
        simp
      · rcases h.cover x h1 (by omega) with hx | hx
        · exact Or.inl hx
        · right
          rw [pushUnique_of_not_mem hnm]
          exact List.mem_append.mpr (Or.inl hx)
  | some id =>
    have hdec : w.free.dropLast ++ [id] = w.free :=
      List.dropLast_append_getLast? id (Option.mem_def.mpr hg)
    have hidf : id ∈ w.free := by
      rw [← hdec]
      simp
    have hna : id ∉ w.alive := h.disj id hidf
    have hnd : id ∉ w.free.dropLast := by
      have hf := h.freeNd
      rw [← hdec] at hf
      intro hmem
      exact (List.disjoint_of_nodup_append hf) hmem (by simp)
    simp only []
    refine ⟨⟨?_, ?_, ?_, ?_, ?_, ?_⟩, hna, (h.bound id (Or.inl hidf)).1⟩ <;> dsimp only
    · exact h.pos
    · rw [pushUnique_of_not_mem hna]
      exact h.aliveNd.append (List.nodup_singleton _)
        (fun x hx hx' => by simp at hx'; subst hx'; exact hna hx)
    · exact h.freeNd.sublist (List.dropLast_sublist _)
    · intro x hx hal'
      have hxf : x ∈ w.free := by
        rw [← hdec]
        exact List.mem_append.mpr (Or.inl hx)
      rw [pushUnique_of_not_mem hna] at hal'
      rcases List.mem_append.mp hal' with h1 | h1
      · exact h.disj x hxf h1
      · simp at h1
        subst h1
        exact hnd hx
    · intro x hx
      rcases hx with hx | hx
      · refine h.bound x (Or.inl ?_)
        rw [← hdec]
        exact List.mem_append.mpr (Or.inl hx)
      · rw [pushUnique_of_not_mem hna] at hx
        rcases List.mem_append.mp hx with h1 | h1
        · exact h.bound x (Or.inr h1)
        · simp at h1
          rw [h1]
          exact h.bound id (Or.inl hidf)
    · intro x h1 h2
      rcases h.cover x h1 h2 with hx | hx
      · rw [← hdec] at hx
        rcases List.mem_append.mp hx with h3 | h3
        · exact Or.inl h3
        · simp at h3
          subst h3
          right
          rw [pushUnique_of_not_mem hna]
          simp
      · right
        rw [pushUnique_of_not_mem hna]
        exact List.mem_append.mpr (Or.inl hx)

theorem destroy_IdP (w : World) (id : Nat) (h : IdP w) : IdP (w.destroy id).1 := by
  by_cases hal : id ∈ w.alive
  · by_cases ht : w.inTick = true
    · by_cases hs : w.strict = true
      · rw [destroy_strict_eq w id hal ht hs]
        exact h
      · have hd : w.destroy id =
            ({ w with cmd := w.cmd ++ [Op.destroyOp id] }, .ok none) := by
          unfold World.destroy
          rw [if_pos hal, if_pos ht, if_neg hs]
        rw [hd]
        exact IdP_congr w _ rfl rfl rfl h
    · obtain ⟨ch, hch⟩ := foldl_markChanged_shape id (purgeAll id w.store).2
        { w with store := (purgeAll id w.store).1 }
      have hD : w.destroy id =
          ({ w with
              store := (purgeAll id w.store).1, changed := ch,
              alive := w.alive.erase id, free := w.free ++ [id], cache := [] },
            .ok (some true)) := by
        unfold World.destroy
        rw [if_pos hal, if_neg ht]
        simp only []
        rw [hch]
      rw [hD]
      have hfree_nid : id ∉ w.free := fun hid => h.disj id hid hal
      constructor
      · exact h.pos
      · exact h.aliveNd.erase id
      · exact h.freeNd.append (List.nodup_singleton id)
          (fun x hx hx' => by simp at hx'; subst hx'; exact hfree_nid hx)
      · intro x hx hmem
        rcases List.mem_append.mp hx with hx1 | hx1
        · exact h.disj x hx1 (List.mem_of_mem_erase hmem)
        · simp at hx1
          subst hx1
          exact (h.aliveNd.not_mem_erase) hmem
      · intro x hx
        rcases hx with hx | hx
        · rcases List.mem_append.mp hx with h1 | h1
          · exact h.bound x (Or.inl h1)
          · simp at h1
            subst h1
            exact h.bound x (Or.inr hal)
        · exact h.bound x (Or.inr (List.mem_of_mem_erase hx))
      · intro x h1 h2
        rcases h.cover x h1 h2 with hx | hx
        · exact Or.inl (List.mem_append.mpr (Or.inl hx))
        · by_cases hxi : x = id
          · subst hxi
            exact Or.inl (by simp)
          · exact Or.inr ((h.aliveNd.mem_erase_iff).mpr ⟨hxi, hx⟩)
  · rw [destroy_dead_eq w id hal]
    exact h

theorem applyOp_IdP (w : World) (op : Op) (h : IdP w) : IdP (w.applyOp op) := by
  cases op with
  | destroyOp id => exact destroy_IdP w id h
  | addOp id c d =>
    obtain ⟨h1, h2, h3⟩ := add_fields w id c d
    exact IdP_congr _ _ h1 h2 h3 h
  | removeOp id c =>
    obtain ⟨h1, h2, h3⟩ := remove_fields w id c
    exact IdP_congr _ _ h1 h2 h3 h
  | setOp id c p =>
    obtain ⟨h1, h2, h3⟩ := set_fields w id c p
    exact IdP_congr _ _ h1 h2 h3 h
  | mutateOp id c f =>
    obtain ⟨h1, h2, h3⟩ := mutate_fields w id c f
    exact IdP_congr _ _ h1 h2 h3 h
  | fnOp ps => exact IdP_congr w _ rfl rfl rfl h

theorem foldl_applyOp_IdP :
    ∀ (ops : List Op) (w : World), IdP w → IdP (ops.foldl World.applyOp w)
  | [], _, h => h
  | op :: ops, w, h => foldl_applyOp_IdP ops _ (applyOp_IdP w op h)

theorem flushCmds_IdP (w : World) (h : IdP w) : IdP w.flushCmds := by
  by_cases hc : w.cmd = []
  · unfold World.flushCmds
    rw [if_pos (List.isEmpty_iff.mpr hc)]
    exact h
  · rw [flushCmds_take_drop w hc]
    have hbase : IdP { w with cmd := ([] : List Op), inTick := false } :=
      IdP_congr w _ rfl rfl rfl h
    have hfold := foldl_applyOp_IdP (w.cmd.take (min 1000 w.cmd.length)) _ hbase
    exact IdP_congr
      ((w.cmd.take (min 1000 w.cmd.length)).foldl World.applyOp
        { w with cmd := [], inTick := false }) _ rfl rfl rfl hfold

theorem endTick_IdP (w : World) (h : IdP w) : IdP w.endTick :=
  IdP_congr w.flushCmds _ rfl rfl rfl (flushCmds_IdP w h)

theorem runAct_IdP (w : World) (a : Act) (h : IdP w) : IdP (runAct w a) := by
  cases a with
  | createA => exact (create_spec w h).1
  | destroyA id => exact destroy_IdP w id h
  | addA id c d =>
    obtain ⟨h1, h2, h3⟩ := add_fields w id c d
    exact IdP_congr _ _ h1 h2 h3 h
  | removeA id c =>
    obtain ⟨h1, h2, h3⟩ := remove_fields w id c
    exact IdP_congr _ _ h1 h2 h3 h
  | setA id c p =>
    obtain ⟨h1, h2, h3⟩ := set_fields w id c p
    exact IdP_congr _ _ h1 h2 h3 h
  | mutateA id c f =>
    obtain ⟨h1, h2, h3⟩ := mutate_fields w id c f
    exact IdP_congr _ _ h1 h2 h3 h
  | queryA terms =>
    obtain ⟨h1, h2, h3⟩ := queryBase_fields w terms
    exact IdP_congr _ _ h1 h2 h3 h
  | beginTickA dt => exact IdP_congr w _ rfl rfl rfl h
  | endTickA => exact endTick_IdP w h

theorem runActs_IdP : ∀ (t : List Act) (w : World), IdP w → IdP (runActs t w)
  | [], _, h => h
  | a :: t, w, h => runActs_IdP t _ (runAct_IdP w a h)

theorem init_IdP (strict schedI : Bool) : IdP (World.init strict schedI) := by
  constructor
  · exact le_refl 1
  · exact List.nodup_nil
  · exact List.nodup_nil
  · intro id hid
    simp [World.init] at hid
  · intro id hid
    rcases hid with hid | hid <;> simp [World.init] at hid
  · intro id h1 h2
    simp [World.init] at h2
    omega

end ECS

namespace ECS

/-- C5: along every sequence of World API calls from a fresh world —
creates, destroys (immediate or deferred) and ticks with their
end-of-tick flushes included — the id space stays partitioned: every
allocated id (`1 ≤ id < nextId`) is in exactly one of the free pool and
the alive set, unallocated ids are in neither, neither collection
repeats an id, and the id handed out by the next `create` is never one
that is simultaneously alive. -/
theorem c5_id_partition (strict schedI : Bool) (t : List Act) :
    IdP (runActs t (World.init strict schedI)) ∧
    (runActs t (World.init strict schedI)).create.2 ∉
      (runActs t (World.init strict schedI)).alive := by
  have h := runActs_IdP t _ (init_IdP strict schedI)
  exact ⟨h, (create_spec _ h).2.1⟩

/-- C5 witness: after one `create` on a fresh world, id 1 is alive and
not free, and in particular not in both. -/
theorem c5_witness :
    ¬ ((1 : Nat) ∈ (runActs [Act.createA] (World.init false false)).free ∧
      (1 : Nat) ∈ (runActs [Act.createA] (World.init false false)).alive) := by
  have h := (c5_id_partition false false [Act.createA]).1
  rintro ⟨h1, h2⟩
  exact h.disj 1 h1 h2

end ECS

namespace ECS

/-! Fuel accounting for the DFS. -/

theorem length_filter_mono {p q : Nat → Bool} :
    ∀ l : List Nat, (∀ x ∈ l, q x = true → p x = true) →
      (l.filter q).length ≤ (l.filter p).length
  | [], _ => le_refl 0
  | x :: l, h => by
    simp only [List.filter_cons]
    have ih := length_filter_mono l (fun y hy => h y (by simp [hy]))
    by_cases hq : q x = true
    · rw [hq, h x (by simp) hq]
      simpa using ih
    · have hq' : q x = false := by revert hq; cases q x <;> simp
      simp only [hq', Bool.false_eq_true, if_false]
      by_cases hp : p x = true
      · simp only [hp, if_true, List.length_cons]
        omega
      · have hp' : p x = false := by revert hp; cases p x <;> simp
        simp only [hp', Bool.false_eq_true, if_false]
        exact ih

theorem unvis_mono (keys vis vis' : List Nat) (h : ∀ x ∈ vis, x ∈ vis') :
    unvis keys vis' ≤ unvis keys vis := by
  unfold unvis
  apply length_filter_mono
  intro x _ hq
  simp only [decide_eq_true_eq] at hq ⊢
  exact fun hm => hq (h x hm)

theorem unvis_cons (keys : List Nat) (hknd : keys.Nodup) (vis : List Nat) (n : Nat)
    (hk : n ∈ keys) (hv : n ∉ vis) : unvis keys (n :: vis) + 1 = unvis keys vis := by
  unfold unvis
  have hLnd : (keys.filter fun k => decide (k ∉ vis)).Nodup := hknd.filter _
  have hnL : n ∈ keys.filter fun k => decide (k ∉ vis) :=
    List.mem_filter.mpr ⟨hk, by simpa using hv⟩
  have h1 : (keys.filter fun k => decide (k ∉ vis)).erase n =
      (keys.filter fun k => decide (k ∉ vis)).filter (· != n) :=
    hLnd.erase_eq_filter n
  have h2 : keys.filter (fun k => decide (k ∉ n :: vis)) =
      (keys.filter fun k => decide (k ∉ vis)).filter (· != n) := by
    rw [List.filter_filter]
    apply List.filter_congr
    intro x _
    by_cases hxv : x ∈ vis <;> by_cases hxn : x = n <;>
      simp [hxv, hxn, List.mem_cons]
  rw [h2, ← h1]
  have h3 := List.length_erase_of_mem hnL
  have h4 := List.length_pos_of_mem hnL
  omega

theorem unvis_none (keys vis : List Nat) (h : unvis keys vis = 0) :
    ∀ m ∈ keys, m ∈ vis := by
  intro m hm
  by_contra hnm
  have h1 : m ∈ keys.filter fun k => decide (k ∉ vis) :=
    List.mem_filter.mpr ⟨hm, by simpa using hnm⟩
  have := List.length_pos_of_mem h1
  unfold unvis at h
  omega

/-! The DFS never moves once everything on the worklist is visited. -/

theorem visitF_noop (adj : Nat → List Nat) :
    ∀ (fuel : Nat) (work : List Nat) (st : List Nat × List Nat),
      (∀ m ∈ work, m ∈ st.1) → visitF adj fuel work st = st
  | _, [], _, _ => by rw [visitF.eq_def]
  | fuel, n :: ns, st, h => by
    rw [visitF.eq_def]
    dsimp only
    rw [if_pos (h n (List.mem_cons_self n ns))]
    exact visitF_noop adj fuel ns st (fun m hm => h m (List.mem_cons_of_mem n hm))

end ECS

namespace ECS

/-! Lemmas on `graphKeys` (JS `Map` key set of the hint graph). -/

theorem nodup_pushUnique {l : List Nat} (h : l.Nodup) (x : Nat) :
    (pushUnique l x).Nodup := by
  unfold pushUnique
  split
  · exact h
  · rename_i hx
    rw [List.nodup_append]
    refine ⟨h, List.nodup_singleton x, ?_⟩
    intro a ha hax
    rw [List.mem_singleton] at hax
    subst hax
    exact hx ha

theorem mem_foldl_pushUnique :
    ∀ (ns : List SysNode) (acc : List Nat) (x : Nat),
      x ∈ ns.foldl (fun a nd => pushUnique a nd.system) acc ↔
        x ∈ acc ∨ ∃ nd ∈ ns, nd.system = x
  | [], acc, x => by simp
  | m :: ns, acc, x => by
    simp only [List.foldl_cons]
    rw [mem_foldl_pushUnique ns (pushUnique acc m.system) x]
    constructor
    · rintro (hm | ⟨nd, hnd, rfl⟩)
      · rcases mem_pushUnique.mp hm with h | h
        · exact Or.inl h
        · exact Or.inr ⟨m, List.mem_cons_self m ns, h.symm⟩
      · exact Or.inr ⟨nd, List.mem_cons_of_mem m hnd, rfl⟩
    · rintro (hm | ⟨nd, hnd, rfl⟩)
      · exact Or.inl (mem_pushUnique.mpr (Or.inl hm))
      · rcases List.mem_cons.mp hnd with rfl | hnd'
        · exact Or.inl (mem_pushUnique.mpr (Or.inr rfl))
        · exact Or.inr ⟨nd, hnd', rfl⟩

theorem nodup_foldl_pushUnique :
    ∀ (ns : List SysNode) (acc : List Nat), acc.Nodup →
      (ns.foldl (fun a nd => pushUnique a nd.system) acc).Nodup
  | [], _, h => h
  | m :: ns, acc, h => by
    simp only [List.foldl_cons]
    exact nodup_foldl_pushUnique ns (pushUnique acc m.system) (nodup_pushUnique h m.system)

theorem graphKeys_nodup (nodes : List SysNode) : (graphKeys nodes).Nodup :=
  nodup_foldl_pushUnique nodes [] List.nodup_nil

theorem mem_graphKeys {nodes : List SysNode} {x : Nat} :
    x ∈ graphKeys nodes ↔ ∃ nd ∈ nodes, nd.system = x := by
  unfold graphKeys
  rw [mem_foldl_pushUnique]
  simp

theorem system_mem_graphKeys {nodes : List SysNode} {nd : SysNode} (h : nd ∈ nodes) :
    nd.system ∈ graphKeys nodes :=
  mem_graphKeys.mpr ⟨nd, h, rfl⟩

/-! The initial adjacency map of `buildAdj`: every key bound to `[]`. -/

theorem alookup_map_nil :
    ∀ (keys : List Nat) (u : Nat),
      alookup (keys.map fun k => (k, ([] : List Nat))) u =
        if u ∈ keys then some [] else none
  | [], u => by simp [alookup]
  | k :: ks, u => by
    simp only [List.map_cons, alookup]
    by_cases h : k = u
    · subst h
      simp
    · rw [if_neg h, alookup_map_nil ks u]
      by_cases hm : u ∈ ks
      · rw [if_pos hm, if_pos (List.mem_cons_of_mem k hm)]
      · have hnc : u ∉ k :: ks := by
          intro hc
          rcases List.mem_cons.mp hc with h1 | h1
          · exact h h1.symm
          · exact hm h1
        rw [if_neg hm, if_neg hnc]

/-! `addEdge` (JS `graph.get(u).add(v)`): domain preservation,
edge-set monotonicity, self-edge presence, and value accounting. -/

theorem alookup_addEdge_isSome (g : List (Nat × List Nat)) (a b u : Nat) :
    (alookup (addEdge g a b) u).isSome = (alookup g u).isSome := by
  unfold addEdge
  cases hl : alookup g a with
  | none => rfl
  | some l =>
    by_cases hu : u = a
    · subst hu
      rw [alookup_setA_self, hl]
      rfl
    · rw [alookup_setA_ne g a _ u (fun he => hu he.symm)]

theorem adjOf_addEdge_mono {g : List (Nat × List Nat)} {u v : Nat} (a b : Nat)
    (h : v ∈ adjOf g u) : v ∈ adjOf (addEdge g a b) u := by
  unfold addEdge
  cases hl : alookup g a with
  | none => exact h
  | some l =>
    by_cases hu : u = a
    · subst hu
      unfold adjOf at h ⊢
      rw [alookup_setA_self]
      rw [hl] at h
      exact mem_pushUnique.mpr (Or.inl h)
    · unfold adjOf at h ⊢
      rw [alookup_setA_ne g a _ u (fun he => hu he.symm)]
      exact h

theorem adjOf_addEdge_self {g : List (Nat × List Nat)} {a : Nat} (b : Nat)
    (h : (alookup g a).isSome = true) : b ∈ adjOf (addEdge g a b) a := by
  unfold addEdge
  cases hl : alookup g a with
  | none =>
    rw [hl] at h
    simp at h
  | some l =>
    unfold adjOf
    rw [alookup_setA_self]
    exact mem_pushUnique.mpr (Or.inr rfl)

theorem adjOf_addEdge_sub {g : List (Nat × List Nat)} {u v a b : Nat}
    (h : v ∈ adjOf (addEdge g a b) u) : v ∈ adjOf g u ∨ v = b := by
  revert h
  unfold addEdge
  cases hl : alookup g a with
  | none => exact Or.inl
  | some l =>
    intro h
    by_cases hu : u = a
    · subst hu
      unfold adjOf at h
      rw [alookup_setA_self] at h
      rcases mem_pushUnique.mp h with h1 | h1
      · left
        unfold adjOf
        rw [hl]
        exact h1
      · right
        exact h1
    · left
      unfold adjOf at h ⊢
      rwa [alookup_setA_ne g a _ u (fun he => hu he.symm)] at h

/-! The per-hint-list edge fold of `addNodeEdges`, generalized over the
endpoint selectors `f1`/`f2`. -/

theorem foldl_edges_isSome (keys : List Nat) (f1 f2 : Nat → Nat) :
    ∀ (l : List Nat) (g : List (Nat × List Nat)) (u : Nat),
      (alookup (l.foldl (fun g d => if d ∈ keys then addEdge g (f1 d) (f2 d) else g) g) u).isSome
        = (alookup g u).isSome
  | [], _, _ => rfl
  | e :: l, g, u => by
    simp only [List.foldl_cons]
    rw [foldl_edges_isSome keys f1 f2 l _ u]
    by_cases he : e ∈ keys
    · rw [if_pos he, alookup_addEdge_isSome]
    · rw [if_neg he]

theorem foldl_edges_mono (keys : List Nat) (f1 f2 : Nat → Nat) :
    ∀ (l : List Nat) (g : List (Nat × List Nat)) (u v : Nat),
      v ∈ adjOf g u →
      v ∈ adjOf (l.foldl (fun g d => if d ∈ keys then addEdge g (f1 d) (f2 d) else g) g) u
  | [], _, _, _, h => h
  | e :: l, g, u, v, h => by
    simp only [List.foldl_cons]
    apply foldl_edges_mono keys f1 f2 l _ u v
    by_cases he : e ∈ keys
    · rw [if_pos he]
      exact adjOf_addEdge_mono _ _ h
    · rwa [if_neg he]

theorem foldl_edges_sub (keys : List Nat) (f1 f2 : Nat → Nat) :
    ∀ (l : List Nat) (g : List (Nat × List Nat)) (u v : Nat),
      v ∈ adjOf (l.foldl (fun g d => if d ∈ keys then addEdge g (f1 d) (f2 d) else g) g) u →
      v ∈ adjOf g u ∨ ∃ d ∈ l, d ∈ keys ∧ v = f2 d
  | [], _, _, _, h => Or.inl h
  | e :: l, g, u, v, h => by
    simp only [List.foldl_cons] at h
    rcases foldl_edges_sub keys f1 f2 l _ u v h with h1 | ⟨d, hd, hdk, rfl⟩
    · by_cases he : e ∈ keys
      · rw [if_pos he] at h1
        rcases adjOf_addEdge_sub h1 with h2 | h2
        · exact Or.inl h2
        · exact Or.inr ⟨e, List.mem_cons_self e l, he, h2⟩
      · rw [if_neg he] at h1
        exact Or.inl h1
    · exact Or.inr ⟨d, List.mem_cons_of_mem e hd, hdk, rfl⟩

theorem foldl_edges_capture (keys : List Nat) (f1 f2 : Nat → Nat) :
    ∀ (l : List Nat) (g : List (Nat × List Nat)) (d : Nat), d ∈ l → d ∈ keys →
      (alookup g (f1 d)).isSome = true →
      f2 d ∈ adjOf (l.foldl (fun g d => if d ∈ keys then addEdge g (f1 d) (f2 d) else g) g) (f1 d)
  | [], _, d, hd, _, _ => absurd hd (List.not_mem_nil d)
  | e :: l, g, d, hd, hk, hsome => by
    simp only [List.foldl_cons]
    rcases List.mem_cons.mp hd with rfl | hd'
    · rw [if_pos hk]
      exact foldl_edges_mono keys f1 f2 l _ _ _ (adjOf_addEdge_self _ hsome)
    · apply foldl_edges_capture keys f1 f2 l _ d hd' hk
      by_cases he : e ∈ keys
      · rw [if_pos he, alookup_addEdge_isSome]
        exact hsome
      · rwa [if_neg he]

/-! `addNodeEdges`: the edges of one registration record. -/

theorem addNodeEdges_isSome (keys : List Nat) (nd : SysNode)
    (g : List (Nat × List Nat)) (u : Nat) :
    (alookup (addNodeEdges keys g nd) u).isSome = (alookup g u).isSome := by
  unfold addNodeEdges
  exact (foldl_edges_isSome keys (fun _ => nd.system) (fun d => d) nd.before _ u).trans
    (foldl_edges_isSome keys (fun d => d) (fun _ => nd.system) nd.after g u)

theorem addNodeEdges_mono (keys : List Nat) (nd : SysNode)
    (g : List (Nat × List Nat)) (u v : Nat) (h : v ∈ adjOf g u) :
    v ∈ adjOf (addNodeEdges keys g nd) u := by
  unfold addNodeEdges
  apply foldl_edges_mono keys (fun _ => nd.system) (fun d => d) nd.before
  exact foldl_edges_mono keys (fun d => d) (fun _ => nd.system) nd.after g u v h

theorem addNodeEdges_values (keys : List Nat) (nd : SysNode)
    (g : List (Nat × List Nat)) (hsys : nd.system ∈ keys)
    (hg : ∀ u v, v ∈ adjOf g u → v ∈ keys) :
    ∀ u v, v ∈ adjOf (addNodeEdges keys g nd) u → v ∈ keys := by
  intro u v h
  unfold addNodeEdges at h
  rcases foldl_edges_sub keys (fun _ => nd.system) (fun d => d) nd.before _ u v h with
    h1 | ⟨d, _, hdk, rfl⟩
  · rcases foldl_edges_sub keys (fun d => d) (fun _ => nd.system) nd.after g u v h1 with
      h2 | ⟨d, _, _, rfl⟩
    · exact hg u v h2
    · exact hsys
  · exact hdk

theorem addNodeEdges_after (keys : List Nat) (nd : SysNode)
    (g : List (Nat × List Nat))
    (hdom : ∀ u, u ∈ keys → (alookup g u).isSome = true)
    (dep : Nat) (hdep : dep ∈ nd.after) (hk : dep ∈ keys) :
    nd.system ∈ adjOf (addNodeEdges keys g nd) dep := by
  unfold addNodeEdges
  apply foldl_edges_mono keys (fun _ => nd.system) (fun d => d) nd.before
  exact foldl_edges_capture keys (fun d => d) (fun _ => nd.system) nd.after g dep hdep hk
    (hdom dep hk)

theorem addNodeEdges_before (keys : List Nat) (nd : SysNode)
    (g : List (Nat × List Nat))
    (hdom : ∀ u, u ∈ keys → (alookup g u).isSome = true)
    (hsys : nd.system ∈ keys)
    (dep : Nat) (hdep : dep ∈ nd.before) (hk : dep ∈ keys) :
    dep ∈ adjOf (addNodeEdges keys g nd) nd.system := by
  unfold addNodeEdges
  apply foldl_edges_capture keys (fun _ => nd.system) (fun d => d) nd.before _ dep hdep hk
  rw [foldl_edges_isSome keys (fun d => d) (fun _ => nd.system) nd.after g nd.system]
  exact hdom nd.system hsys

/-! The node fold of `buildAdj`. -/

theorem buildFold_isSome (keys : List Nat) :
    ∀ (ns : List SysNode) (g : List (Nat × List Nat)) (u : Nat),
      (alookup (ns.foldl (addNodeEdges keys) g) u).isSome = (alookup g u).isSome
  | [], _, _ => rfl
  | m :: ns, g, u => by
    simp only [List.foldl_cons]
    rw [buildFold_isSome keys ns _ u, addNodeEdges_isSome]

theorem buildFold_mono (keys : List Nat) :
    ∀ (ns : List SysNode) (g : List (Nat × List Nat)) (u v : Nat),
      v ∈ adjOf g u → v ∈ adjOf (ns.foldl (addNodeEdges keys) g) u
  | [], _, _, _, h => h
  | m :: ns, g, u, v, h => by
    simp only [List.foldl_cons]
    exact buildFold_mono keys ns _ u v (addNodeEdges_mono keys m g u v h)

theorem buildFold_values (keys : List Nat) :
    ∀ (ns : List SysNode) (g : List (Nat × List Nat)),
      (∀ nd ∈ ns, nd.system ∈ keys) →
      (∀ u v, v ∈ adjOf g u → v ∈ keys) →
      ∀ u v, v ∈ adjOf (ns.foldl (addNodeEdges keys) g) u → v ∈ keys
  | [], _, _, hg, u, v, h => hg u v h
  | m :: ns, g, hsys, hg, u, v, h => by
    simp only [List.foldl_cons] at h
    exact buildFold_values keys ns _ (fun nd hnd => hsys nd (List.mem_cons_of_mem m hnd))
      (addNodeEdges_values keys m g (hsys m (List.mem_cons_self m ns)) hg) u v h

theorem buildFold_after (keys : List Nat) :
    ∀ (ns : List SysNode) (g : List (Nat × List Nat)),
      (∀ u, u ∈ keys → (alookup g u).isSome = true) →
      ∀ nd ∈ ns, ∀ dep ∈ nd.after, dep ∈ keys →
        nd.system ∈ adjOf (ns.foldl (addNodeEdges keys) g) dep
  | [], _, _, nd, hnd, _, _, _ => absurd hnd (List.not_mem_nil nd)
  | m :: ns, g, hdom, nd, hnd, dep, hdep, hk => by
    simp only [List.foldl_cons]
    rcases List.mem_cons.mp hnd with rfl | hnd'
    · exact buildFold_mono keys ns _ dep nd.system
        (addNodeEdges_after keys nd g hdom dep hdep hk)
    · have hdom' : ∀ u, u ∈ keys → (alookup (addNodeEdges keys g m) u).isSome = true := by
        intro u hu
        rw [addNodeEdges_isSome]
        exact hdom u hu
      exact buildFold_after keys ns _ hdom' nd hnd' dep hdep hk

theorem buildFold_before (keys : List Nat) :
    ∀ (ns : List SysNode) (g : List (Nat × List Nat)),
      (∀ u, u ∈ keys → (alookup g u).isSome = true) →
      ∀ nd ∈ ns, nd.system ∈ keys → ∀ dep ∈ nd.before, dep ∈ keys →
        dep ∈ adjOf (ns.foldl (addNodeEdges keys) g) nd.system
  | [], _, _, nd, hnd, _, _, _, _ => absurd hnd (List.not_mem_nil nd)
  | m :: ns, g, hdom, nd, hnd, hsys, dep, hdep, hk => by
    simp only [List.foldl_cons]
    rcases List.mem_cons.mp hnd with rfl | hnd'
    · exact buildFold_mono keys ns _ nd.system dep
        (addNodeEdges_before keys nd g hdom hsys dep hdep hk)
    · have hdom' : ∀ u, u ∈ keys → (alookup (addNodeEdges keys g m) u).isSome = true := by
        intro u hu
        rw [addNodeEdges_isSome]
        exact hdom u hu
      exact buildFold_before keys ns _ hdom' nd hnd' hsys dep hdep hk

/-! `buildAdj`: keys, values, and hint-edge capture. -/

theorem buildAdj_dom (nodes : List SysNode) :
    ∀ u, u ∈ graphKeys nodes →
      (alookup ((graphKeys nodes).map fun k => (k, ([] : List Nat))) u).isSome = true := by
  intro u hu
  rw [alookup_map_nil, if_pos hu]
  rfl

theorem buildAdj_values {nodes : List SysNode} {u v : Nat}
    (h : v ∈ adjOf (buildAdj nodes) u) : v ∈ graphKeys nodes := by
  have hbase : ∀ u v, v ∈ adjOf ((graphKeys nodes).map fun k => (k, ([] : List Nat))) u →
      v ∈ graphKeys nodes := by
    intro u v hv
    unfold adjOf at hv
    rw [alookup_map_nil] at hv
    by_cases hm : u ∈ graphKeys nodes
    · rw [if_pos hm] at hv
      simp at hv
    · rw [if_neg hm] at hv
      simp at hv
  exact buildFold_values (graphKeys nodes) nodes _
    (fun nd hnd => system_mem_graphKeys hnd) hbase u v h

theorem buildAdj_src {nodes : List SysNode} {u v : Nat}
    (h : v ∈ adjOf (buildAdj nodes) u) : u ∈ graphKeys nodes := by
  have hs : (alookup (buildAdj nodes) u).isSome = true := by
    unfold adjOf at h
    cases hl : alookup (buildAdj nodes) u with
    | none =>
      rw [hl] at h
      simp at h
    | some l => rfl
  have := (buildFold_isSome (graphKeys nodes) nodes
    ((graphKeys nodes).map fun k => (k, ([] : List Nat))) u).symm.trans hs
  rw [alookup_map_nil] at this
  by_cases hm : u ∈ graphKeys nodes
  · exact hm
  · rw [if_neg hm] at this
    simp at this

theorem buildAdj_after {nodes : List SysNode} {nd : SysNode} (hnd : nd ∈ nodes)
    {dep : Nat} (hdep : dep ∈ nd.after) (hk : dep ∈ graphKeys nodes) :
    nd.system ∈ adjOf (buildAdj nodes) dep :=
  buildFold_after (graphKeys nodes) nodes _ (buildAdj_dom nodes) nd hnd dep hdep hk

theorem buildAdj_before {nodes : List SysNode} {nd : SysNode} (hnd : nd ∈ nodes)
    {dep : Nat} (hdep : dep ∈ nd.before) (hk : dep ∈ graphKeys nodes) :
    dep ∈ adjOf (buildAdj nodes) nd.system :=
  buildFold_before (graphKeys nodes) nodes _ (buildAdj_dom nodes) nd hnd
    (system_mem_graphKeys hnd) dep hdep hk

end ECS

namespace ECS

/-! Unfolding equations for `visitF`. -/

theorem visitF_nil (adj : Nat → List Nat) (fuel : Nat) (st : List Nat × List Nat) :
    visitF adj fuel [] st = st := by
  rw [visitF.eq_def]

theorem visitF_cons (adj : Nat → List Nat) (f n : Nat) (ns : List Nat)
    (st : List Nat × List Nat) :
    visitF adj (f + 1) (n :: ns) st =
      visitF adj (f + 1) ns
        (if n ∈ st.1 then st
         else ((visitF adj f (adj n) (n :: st.1, st.2)).1,
               (visitF adj f (adj n) (n :: st.1, st.2)).2 ++ [n])) := by
  rw [visitF.eq_def]

end ECS

namespace ECS

/-- The main DFS invariant argument: with enough fuel, the traversal
extends the postorder only at the end, preserves the invariant relative
to the gray ancestor stack, and finishes every worklist node (or leaves
it gray).  The edge relation must be acyclic and keys-closed. -/
theorem visitF_main (adj : Nat → List Nat) (keys : List Nat) (hknd : keys.Nodup)
    (hacyc : ∀ n, ¬ Relation.TransGen (Edge adj) n n)
    (hadj : ∀ u v, v ∈ adj u → v ∈ keys) :
    ∀ (fuel : Nat) (work gray : List Nat) (st : List Nat × List Nat),
      (∀ m ∈ work, m ∈ keys) →
      (∀ m ∈ work, ∀ g ∈ gray, Relation.TransGen (Edge adj) g m) →
      DfsInv adj keys gray st →
      unvis keys st.1 ≤ fuel →
      (∀ x ∈ st.1, x ∈ (visitF adj fuel work st).1) ∧
      (∃ tail, (visitF adj fuel work st).2 = st.2 ++ tail) ∧
      DfsInv adj keys gray (visitF adj fuel work st) ∧
      (∀ m ∈ work, m ∈ (visitF adj fuel work st).2 ∨ m ∈ gray) := by
  intro fuel
  induction fuel with
  | zero =>
    intro work gray st hwk hwg hinv hfuel
    have hall : ∀ m ∈ work, m ∈ st.1 := fun m hm =>
      unvis_none keys st.1 (Nat.le_zero.mp hfuel) m (hwk m hm)
    rw [visitF_noop adj 0 work st hall]
    exact ⟨fun x hx => hx, ⟨[], (List.append_nil st.2).symm⟩, hinv,
      fun m hm => hinv.visDone m (hall m hm)⟩
  | succ f ihf =>
    intro work
    induction work with
    | nil =>
      intro gray st hwk hwg hinv hfuel
      rw [visitF_nil]
      exact ⟨fun x hx => hx, ⟨[], (List.append_nil st.2).symm⟩, hinv,
        fun m hm => absurd hm (List.not_mem_nil m)⟩
    | cons n ns ihw =>
      intro gray st hwk hwg hinv hfuel
      rw [visitF_cons]
      by_cases hn : n ∈ st.1
      · rw [if_pos hn]
        obtain ⟨h1, ⟨tail, h2⟩, h3, h4⟩ := ihw gray st
          (fun m hm => hwk m (List.mem_cons_of_mem n hm))
          (fun m hm => hwg m (List.mem_cons_of_mem n hm)) hinv hfuel
        refine ⟨h1, ⟨tail, h2⟩, h3, ?_⟩
        intro m hm
        rcases List.mem_cons.mp hm with rfl | hm'
        · rcases hinv.visDone _ hn with hout | hgray
          · left
            rw [h2]
            exact List.mem_append_left tail hout
          · right
            exact hgray
        · exact h4 m hm'
      · rw [if_neg hn]
        have hnk : n ∈ keys := hwk n (List.mem_cons_self n ns)
        have hfuel1 : unvis keys (n :: st.1) ≤ f := by
          have := unvis_cons keys hknd st.1 n hnk hn
          omega
        have hwk1 : ∀ m ∈ adj n, m ∈ keys := fun m hm => hadj n m hm
        have hwg1 : ∀ m ∈ adj n, ∀ g ∈ n :: gray, Relation.TransGen (Edge adj) g m := by
          intro m hm g hg
          rcases List.mem_cons.mp hg with rfl | hg'
          · exact Relation.TransGen.single hm
          · exact Relation.TransGen.tail (hwg n (List.mem_cons_self n ns) g hg') hm
        have hinv1 : DfsInv adj keys (n :: gray) (n :: st.1, st.2) := by
          refine ⟨?_, ?_, ?_, ?_, ?_, hinv.outNd, hinv.ord⟩
          · intro x hx
            rcases List.mem_cons.mp hx with rfl | hx'
            · exact Or.inr (List.mem_cons_self _ _)
            · rcases hinv.visDone x hx' with h | h
              · exact Or.inl h
              · exact Or.inr (List.mem_cons_of_mem n h)
          · intro x hx
            exact List.mem_cons_of_mem n (hinv.outVis x hx)
          · intro g hg
            rcases List.mem_cons.mp hg with rfl | hg'
            · exact List.mem_cons_self _ _
            · exact List.mem_cons_of_mem n (hinv.grayVis g hg')
          · intro g hg
            rcases List.mem_cons.mp hg with rfl | hg'
            · exact fun hc => hn (hinv.outVis _ hc)
            · exact hinv.grayOut g hg'
          · intro x hx
            rcases List.mem_cons.mp hx with rfl | hx'
            · exact hnk
            · exact hinv.visKeys x hx'
        obtain ⟨hvm, ⟨tail, htail⟩, hinv2, hdone⟩ :=
          ihf (adj n) (n :: gray) (n :: st.1, st.2) hwk1 hwg1 hinv1 hfuel1
        set v1 := visitF adj f (adj n) (n :: st.1, st.2) with hv1
        have hnout : n ∉ v1.2 := hinv2.grayOut n (List.mem_cons_self n gray)
        have hvm' : ∀ x ∈ st.1, x ∈ v1.1 := fun x hx => hvm x (List.mem_cons_of_mem n hx)
        have hnv1 : n ∈ v1.1 := hvm n (List.mem_cons_self n st.1)
        have hinv3 : DfsInv adj keys gray (v1.1, v1.2 ++ [n]) := by
          refine ⟨?_, ?_, ?_, ?_, hinv2.visKeys, ?_, ?_⟩
          · intro x hx
            rcases hinv2.visDone x hx with h | h
            · exact Or.inl (List.mem_append_left [n] h)
            · rcases List.mem_cons.mp h with rfl | h'
              · exact Or.inl (List.mem_append_right v1.2 (List.mem_singleton.mpr rfl))
              · exact Or.inr h'
          · intro x hx
            rcases List.mem_append.mp hx with h | h
            · exact hinv2.outVis x h
            · rw [List.mem_singleton] at h
              subst h
              exact hnv1
          · intro g hg
            exact hvm' g (hinv.grayVis g hg)
          · intro g hg hc
            rcases List.mem_append.mp hc with h | h
            · exact hinv2.grayOut g (List.mem_cons_of_mem n hg) h
            · rw [List.mem_singleton] at h
              rw [h] at hg
              exact hacyc n (hwg n (List.mem_cons_self n ns) n hg)
          · dsimp only
            rw [List.nodup_append]
            refine ⟨hinv2.outNd, List.nodup_singleton n, ?_⟩
            intro a ha hax
            rw [List.mem_singleton] at hax
            subst hax
            exact hnout ha
          · dsimp only
            intro i hi m hm
            by_cases hlt : i < v1.2.length
            · have hget : (v1.2 ++ [n]).get ⟨i, hi⟩ = v1.2.get ⟨i, hlt⟩ := by
                rw [List.get_eq_getElem, List.get_eq_getElem, List.getElem_append_left hlt]
              rw [hget] at hm
              obtain ⟨j, hj, hji, hjm⟩ := hinv2.ord i hlt m hm
              have hj' : j < (v1.2 ++ [n]).length := by
                rw [List.length_append]
                omega
              refine ⟨j, hj', hji, ?_⟩
              rw [List.get_eq_getElem, List.getElem_append_left hj]
              rw [List.get_eq_getElem] at hjm
              exact hjm
            · have hieq : i = v1.2.length := by
                rw [List.length_append, List.length_singleton] at hi
                omega
              have hget : (v1.2 ++ [n]).get ⟨i, hi⟩ = n := by
                rw [List.get_eq_getElem,
                  List.getElem_append_right (by omega : v1.2.length ≤ i)]
                subst hieq
                simp
              rw [hget] at hm
              rcases hdone m hm with hmo | hmg
              · obtain ⟨j, hj, hjm⟩ := List.mem_iff_getElem.mp hmo
                have hj' : j < (v1.2 ++ [n]).length := by
                  rw [List.length_append]
                  omega
                refine ⟨j, hj', by omega, ?_⟩
                rw [List.get_eq_getElem, List.getElem_append_left hj]
                exact hjm
              · rcases List.mem_cons.mp hmg with rfl | hmg'
                · exact absurd (Relation.TransGen.single hm) (hacyc _)
                · exact absurd
                    (Relation.TransGen.tail (hwg n (List.mem_cons_self n ns) m hmg') hm)
                    (hacyc m)
        have hfuel2 : unvis keys v1.1 ≤ f + 1 := by
          have h1 : unvis keys v1.1 ≤ unvis keys st.1 := unvis_mono keys st.1 v1.1 hvm'
          omega
        obtain ⟨k1, ⟨tail2, k2⟩, k3, k4⟩ := ihw gray (v1.1, v1.2 ++ [n])
          (fun m hm => hwk m (List.mem_cons_of_mem n hm))
          (fun m hm => hwg m (List.mem_cons_of_mem n hm)) hinv3 hfuel2
        refine ⟨?_, ?_, k3, ?_⟩
        · intro x hx
          exact k1 x (hvm' x hx)
        · refine ⟨tail ++ [n] ++ tail2, ?_⟩
          rw [k2]
          dsimp only
          rw [htail]
          dsimp only
          simp [List.append_assoc]
        · intro m hm
          rcases List.mem_cons.mp hm with rfl | hm'
          · left
            rw [k2]
            exact List.mem_append_left tail2
              (List.mem_append_right v1.2 (List.mem_singleton.mpr rfl))
          · exact k4 m hm'

end ECS

namespace ECS

/-! From the postorder invariant to scheduling precedence on the
reversed output. -/

theorem prec_trans {l : List Nat} (hnd : l.Nodup) {a b c : Nat}
    (h1 : Prec l a b) (h2 : Prec l b c) : Prec l a c := by
  obtain ⟨i, j, hi, hj, hij, hia, hjb⟩ := h1
  obtain ⟨i2, j2, hi2, hj2, hij2, hib, hjc⟩ := h2
  have hfin : (⟨j, hj⟩ : Fin l.length) = ⟨i2, hi2⟩ :=
    (hnd.get_inj_iff).mp (by rw [hjb, hib])
  have hji2 : j = i2 := congrArg Fin.val hfin
  exact ⟨i, j2, hi, hj2, by omega, hia, hjc⟩

theorem prec_reverse (out : List Nat) (adj : Nat → List Nat)
    (hord : ∀ (i : Nat) (hi : i < out.length) (m : Nat),
      m ∈ adj (out.get ⟨i, hi⟩) → ∃ j, ∃ hj : j < out.length, j < i ∧ out.get ⟨j, hj⟩ = m)
    {u v : Nat} (hu : u ∈ out) (hedge : v ∈ adj u) : Prec out.reverse u v := by
  obtain ⟨i, hi, hiu⟩ := List.mem_iff_getElem.mp hu
  have hm : v ∈ adj (out.get ⟨i, hi⟩) := by
    rw [List.get_eq_getElem, hiu]
    exact hedge
  obtain ⟨j, hj, hji, hjv⟩ := hord i hi v hm
  refine ⟨out.length - 1 - i, out.length - 1 - j, ?_, ?_, by omega, ?_, ?_⟩
  · simp only [List.length_reverse]
    omega
  · simp only [List.length_reverse]
    omega
  · rw [List.get_eq_getElem, List.getElem_reverse]
    simp only [show out.length - 1 - (out.length - 1 - i) = i from by omega]
    exact hiu
  · rw [List.get_eq_getElem, List.getElem_reverse]
    simp only [show out.length - 1 - (out.length - 1 - j) = j from by omega]
    rw [List.get_eq_getElem] at hjv
    exact hjv

theorem transGen_target_keys (adj : Nat → List Nat) (keys : List Nat)
    (hadj : ∀ u v, v ∈ adj u → v ∈ keys) {u v : Nat}
    (h : Relation.TransGen (Edge adj) u v) : v ∈ keys := by
  induction h with
  | single h1 => exact hadj _ _ h1
  | tail h1 h2 ih => exact hadj _ _ h2

theorem acyclic_of_rank (adj : Nat → List Nat) (rank : Nat → Nat)
    (h : ∀ u v, Edge adj u v → rank u < rank v) :
    ∀ n, ¬ Relation.TransGen (Edge adj) n n := by
  have hmono : ∀ u v, Relation.TransGen (Edge adj) u v → rank u < rank v := by
    intro u v huv
    induction huv with
    | single h1 => exact h _ _ h1
    | tail h1 h2 ih => exact lt_trans ih (h _ _ h2)
  intro n hn
  exact lt_irrefl _ (hmono n n hn)

/-- C8: `getOrderedSystems` (src/index.js lines 55-75).  An explicit
order set for the phase is returned unchanged, bypassing resolution.
The built hint graph holds the edge `dep -> system` for every `after`
hint and `system -> dep` for every `before` hint that names a
registered system.  When that hint graph is acyclic, the resolved
order is duplicate-free, contains exactly the registered system
handles, and places `u` strictly before `v` whenever the hint graph
forces it, transitively.  Repeated resolution over the same
registration list returns the same order, since resolution here is a
pure function of that list. -/
theorem c8_getOrderedSystems (nodes : List SysNode) :
    (∀ l : List Nat, getOrderedSystems (some l) nodes = l) ∧
    (∀ nd ∈ nodes, ∀ dep ∈ nd.after, dep ∈ graphKeys nodes →
      Edge (adjOf (buildAdj nodes)) dep nd.system) ∧
    (∀ nd ∈ nodes, ∀ dep ∈ nd.before, dep ∈ graphKeys nodes →
      Edge (adjOf (buildAdj nodes)) nd.system dep) ∧
    ((∀ n, ¬ Relation.TransGen (Edge (adjOf (buildAdj nodes))) n n) →
      (getOrderedSystems none nodes).Nodup ∧
      (∀ m, m ∈ getOrderedSystems none nodes ↔ m ∈ graphKeys nodes) ∧
      (∀ u v, Relation.TransGen (Edge (adjOf (buildAdj nodes))) u v →
        Prec (getOrderedSystems none nodes) u v)) := by
  refine ⟨fun l => rfl, ?_, ?_, ?_⟩
  · intro nd hnd dep hdep hk
    exact buildAdj_after hnd hdep hk
  · intro nd hnd dep hdep hk
    exact buildAdj_before hnd hdep hk
  · intro hacyc
    have hadj : ∀ u v, v ∈ adjOf (buildAdj nodes) u → v ∈ graphKeys nodes :=
      fun u v h => buildAdj_values h
    obtain ⟨h1, ⟨tail, h2⟩, h3, h4⟩ :=
      visitF_main (adjOf (buildAdj nodes)) (graphKeys nodes) (graphKeys_nodup nodes)
        hacyc hadj (graphKeys nodes).length (graphKeys nodes) [] ([], [])
        (fun m hm => hm) (fun m _ g hg => absurd hg (List.not_mem_nil g))
        ⟨fun x hx => absurd hx (List.not_mem_nil x),
         fun x hx => absurd hx (List.not_mem_nil x),
         fun g hg => absurd hg (List.not_mem_nil g),
         fun g hg => absurd hg (List.not_mem_nil g),
         fun x hx => absurd hx (List.not_mem_nil x),
         List.nodup_nil,
         fun i hi m hm => absurd hi (Nat.not_lt_zero i)⟩
        (by
          unfold unvis
          exact List.length_filter_le _ _)
    have hres : getOrderedSystems none nodes =
        (visitF (adjOf (buildAdj nodes)) (graphKeys nodes).length (graphKeys nodes)
          ([], [])).2.reverse := rfl
    have hnd : (getOrderedSystems none nodes).Nodup := by
      rw [hres]
      exact List.nodup_reverse.mpr h3.outNd
    refine ⟨hnd, ?_, ?_⟩
    · intro m
      rw [hres, List.mem_reverse]
      constructor
      · intro hm
        exact h3.visKeys m (h3.outVis m hm)
      · intro hk
        exact (h4 m hk).resolve_right (List.not_mem_nil m)
    · intro u v htg
      have hmem : ∀ a b, Edge (adjOf (buildAdj nodes)) a b →
          Prec (getOrderedSystems none nodes) a b := by
        intro a b hab
        rw [hres]
        apply prec_reverse _ (adjOf (buildAdj nodes)) h3.ord
        · have hak : a ∈ graphKeys nodes := buildAdj_src hab
          exact (h4 a hak).resolve_right (List.not_mem_nil a)
        · exact hab
      induction htg with
      | single h => exact hmem _ _ h
      | tail hprev hlast ih => exact prec_trans hnd ih (hmem _ _ hlast)

theorem c8_witness :
    getOrderedSystems (some [7, 3]) [⟨1, [], [2]⟩, ⟨2, [], []⟩] = [7, 3] ∧
    Prec (getOrderedSystems none [⟨1, [], [2]⟩, ⟨2, [], []⟩]) 2 1 := by
  have h := c8_getOrderedSystems [⟨1, [], [2]⟩, ⟨2, [], []⟩]
  refine ⟨h.1 [7, 3], ?_⟩
  have hg : buildAdj [⟨1, [], [2]⟩, ⟨2, [], []⟩] = [(1, []), (2, [1])] := by rfl
  have hacyc :
      ∀ n, ¬ Relation.TransGen (Edge (adjOf (buildAdj [⟨1, [], [2]⟩, ⟨2, [], []⟩]))) n n := by
    apply acyclic_of_rank _ (fun n => if n = 1 then 1 else 0)
    intro u v huv
    have hv : v ∈ adjOf [(1, []), (2, [1])] u := by
      rw [← hg]
      exact huv
    by_cases h1 : u = 1
    · subst h1
      simp [adjOf, alookup] at hv
    · by_cases h2 : u = 2
      · subst h2
        simp [adjOf, alookup] at hv
        subst hv
        simp
      · have h1' : (1 : Nat) ≠ u := fun he => h1 he.symm
        have h2' : (2 : Nat) ≠ u := fun he => h2 he.symm
        simp [adjOf, alookup, h1', h2'] at hv
  have hedge :
      Relation.TransGen (Edge (adjOf (buildAdj [⟨1, [], [2]⟩, ⟨2, [], []⟩]))) 2 1 := by
    apply Relation.TransGen.single
    exact h.2.1 ⟨1, [], [2]⟩ (List.mem_cons_self _ _) 2 (List.mem_cons_self _ _) (by decide)
  exact (h.2.2.2 hacyc).2.2 2 1 hedge

end ECS
